import Mathlib

/-!
Shallow embedding of the TMFG library (`TMFG_core.py`) and a verification of
its specification claims.

Matrices are modelled as total functions `ℕ → ℕ → ℚ`; the dimension `N`
accompanies them wherever the Python code reads a shape.  Numpy arrays of
gains / best vertices are modelled as Lean lists updated with `List.set`,
and the mutable instance variables of the `TMFG` class are gathered into an
explicit state record threaded through the loop of `__compute_TMFG`.

The repository imports `max_clique` and `get_best_gain` from a `utils`
module that is not part of the sources; those two functions are modelled
from the specification (sections 4.1 and 4.2) and are marked as such.
-/

namespace TMFGSpec

/-- Matrices are total rational-valued functions on pairs of indices. -/
abbrev Mat : Type := ℕ → ℕ → ℚ

/-- The all-zero matrix (`np.zeros`). -/
def zeroMat : Mat := fun _ _ => 0

/-- Zero the main diagonal (`self.W[np.diag_indices_from(self.W)] = 0`,
line 122 of `TMFG_core.py`). -/
def zeroDiag (W : Mat) : Mat := fun i j => if i = j then 0 else W i j

/-- Write one entry of a matrix (`self.P[i0, i1] = v`). -/
def setEntry (M : Mat) (i j : ℕ) (v : ℚ) : Mat :=
  fun a b => if a = i ∧ b = j then v else M a b

/-- All 2-element combinations of a list, in `itertools.combinations`
order: the first component always occurs before the second in the list
(lines 124-128 and 147-152 of `TMFG_core.py` extract exactly these). -/
def pairsOf : List ℕ → List (ℕ × ℕ)
  | [] => []
  | x :: xs => (xs.map fun y => (x, y)) ++ pairsOf xs

/-- Copy the weight entries of every pair of a clique into the accumulator
`P` (lines 130-131 and 154-155 of `TMFG_core.py`). -/
def writeP (P : Mat) (l : List ℕ) (W : Mat) : Mat :=
  (pairsOf l).foldl (fun Q p => setEntry Q p.1 p.2 (W p.1 p.2)) P

/-- Ascending lexicographic enumeration of all strictly increasing
quadruples of `[0, N)`. -/
def quadruples (N : ℕ) : List (List ℕ) :=
  (List.range N).flatMap fun a =>
    (List.range N).flatMap fun b =>
      (List.range N).flatMap fun c =>
        (List.range N).filterMap fun d =>
          if a < b ∧ b < c ∧ c < d then some [a, b, c, d] else none

/-- Total pairwise weight of a candidate clique. -/
def quadScore (W : Mat) (q : List ℕ) : ℚ :=
  (pairsOf q).foldl (fun acc p => acc + W p.1 p.2) 0

/-- Modelled from the spec: `max_clique` lives in the absent `utils`
module.  Per section 4.1 (SeedCliqueSelector) it returns the 4-vertex
clique maximizing the sum of its 6 pairwise weights, enumerating all
quadruples and keeping the first maximizer in ascending lexicographic
order. -/
def max_clique (W : Mat) (N : ℕ) : List ℕ :=
  match quadruples N with
  | [] => []
  | q :: qs => qs.foldl (fun best q2 => if quadScore W best < quadScore W q2 then q2 else best) q

/-- Gain of inserting vertex `v` into a triangular face
(`W[v, a] + W[v, b] + W[v, c]`, section 4.2 of the spec). -/
def gainOf (W : Mat) (tri : List ℕ) (v : ℕ) : ℚ :=
  W v (tri.getD 0 0) + W v (tri.getD 1 0) + W v (tri.getD 2 0)

/-- Modelled from the spec: `get_best_gain` lives in the absent `utils`
module.  Per section 4.2 (FaceGainTracker) it returns the unplaced vertex
of maximum gain for the face together with that gain, ties broken by the
lowest vertex index (the unplaced list is kept in ascending order), and
the sentinel pair `(-1, 0)` when no unplaced vertex remains.  The `N` and
`no_vertex_list` arguments of the Python call sites carry no further
information and are dropped. -/
def get_best_gain (vl : List ℕ) (tri : List ℕ) (W : Mat) : ℤ × ℚ :=
  match vl with
  | [] => (-1, 0)
  | v :: vs =>
      vs.foldl
        (fun best v2 => if best.2 < gainOf W tri v2 then ((v2 : ℤ), gainOf W tri v2) else best)
        ((v : ℤ), gainOf W tri v)

/-- Index of the first occurrence of the maximum of a list
(`np.argmax`); `0` on the empty list. -/
def argmax : List ℚ → ℕ
  | [] => 0
  | [_] => 0
  | x :: y :: t =>
      if x < (y :: t).getD (argmax (y :: t)) 0 then argmax (y :: t) + 1 else 0

/-- The mutable instance variables of the `TMFG` class during one run
(field names follow `TMFG_core.py`; `W` is the diagonal-zeroed working
copy, `original_W` the input as supplied by the caller). -/
structure TMFGState where
  N : ℕ
  W : Mat
  original_W : Mat
  P : Mat
  max_clique_gains : List ℚ
  best_vertex : List ℤ
  cliques : List (List ℕ)
  separators : List (List ℕ)
  triangles : List (List ℕ)
  peo : List ℕ
  vertex_list : List ℕ

/-- Recompute the cached best gain and best vertex of the face slot `t`
(the repeated pattern of lines 133-136, 169-172 and 176-180 of
`TMFG_core.py`). -/
def refresh (W : Mat) (vl : List ℕ) (tris : List (List ℕ))
    (gb : List ℚ × List ℤ) (t : ℕ) : List ℚ × List ℤ :=
  let r := get_best_gain vl (tris.getD t []) W
  (gb.1.set t r.2, gb.2.set t r.1)

/-- State after lines 112-136 of `TMFG_core.py`: seed clique, the four
seed faces, diagonal zeroing, initial `P` writes and the eager gain
computation for the four initial faces. -/
def initState (weights : Mat) (N : ℕ) : TMFGState :=
  let c0 := max_clique weights N
  let vl := (List.range N).filter fun v => decide (v ∉ c0)
  let tris := [[c0.getD 0 0, c0.getD 1 0, c0.getD 2 0],
               [c0.getD 0 0, c0.getD 1 0, c0.getD 3 0],
               [c0.getD 0 0, c0.getD 2 0, c0.getD 3 0],
               [c0.getD 1 0, c0.getD 2 0, c0.getD 3 0]]
  let W0 := zeroDiag weights
  let P0 := writeP zeroMat c0 W0
  let gb0 : List ℚ × List ℤ := (List.replicate (3 * N - 6) 0, List.replicate (3 * N - 6) (-1))
  let gb1 := [0, 1, 2, 3].foldl (refresh W0 vl tris) gb0
  { N := N, W := W0, original_W := weights, P := P0,
    max_clique_gains := gb1.1, best_vertex := gb1.2,
    cliques := [c0], separators := [], triangles := tris,
    peo := c0, vertex_list := vl }

/-- Gain-cache update of one loop iteration (lines 165-180 of
`TMFG_core.py`): when unplaced vertices remain, refresh every slot whose
cached best vertex was just consumed (`np.argwhere(best_vertex == nv)`),
then zero the consumed slot's gain and refresh the mutated slot `nt` and
the two newly appended faces. -/
def updateGains (W : Mat) (vl2 : List ℕ) (tris2 : List (List ℕ)) (nt : ℕ) (nvz : ℤ)
    (gains : List ℚ) (best : List ℤ) : List ℚ × List ℤ :=
  let gb1 :=
    if vl2.isEmpty then (gains, best)
    else
      ((List.range best.length).filter fun t => decide (best.getD t (-1) = nvz)).foldl
        (refresh W vl2 tris2) (gains, best)
  let g2 := gb1.1.set nt 0
  let ct := tris2.length - 1
  if vl2.isEmpty then (g2, gb1.2)
  else [nt, ct - 1, ct].foldl (refresh W vl2 tris2) (g2, gb1.2)

/-- One iteration of the insertion loop (lines 138-180 of
`TMFG_core.py`).  `nvz` is the raw cached integer (the Python code
compares `best_vertex == nv` on it); it is converted to a natural number
where it is used as a vertex. -/
def step (s : TMFGState) : TMFGState :=
  let nt := argmax s.max_clique_gains
  let nvz := s.best_vertex.getD nt (-1)
  let nv := nvz.toNat
  let newsep := s.triangles.getD nt []
  let thetraedron := nv :: newsep
  let P2 := writeP s.P thetraedron s.W
  let tris2 := (s.triangles.set nt [newsep.getD 0 0, newsep.getD 1 0, nv]) ++
               [[newsep.getD 0 0, newsep.getD 2 0, nv], [newsep.getD 1 0, newsep.getD 2 0, nv]]
  let vl2 := s.vertex_list.filter fun v => decide (v ≠ nv)
  let gb3 := updateGains s.W vl2 tris2 nt nvz s.max_clique_gains s.best_vertex
  { s with peo := s.peo ++ [nv], cliques := s.cliques ++ [thetraedron],
           separators := s.separators ++ [newsep], triangles := tris2,
           vertex_list := vl2, P := P2,
           max_clique_gains := gb3.1, best_vertex := gb3.2 }

/-- Final engine state: the seed construction followed by `N - 4`
insertion iterations (`for u in range(0, self.N - 4)`). -/
def compute_TMFG_state (weights : Mat) (N : ℕ) : TMFGState :=
  step^[N - 4] (initState weights N)

/-- Overwrite the whole block of `J` indexed by a clique with the
corresponding block of `V` (`self.J[np.ix_(c, c)] = ...`). -/
def blockSet (J : Mat) (c : List ℕ) (V : Mat) : Mat :=
  fun a b => if a ∈ c ∧ b ∈ c then V a b else J a b

/-- Binary adjacency output (`__unweighted_sparse_W_matrix`,
lines 198-202): set every clique block to 1, then zero the diagonal. -/
def unweighted_J (cliques : List (List ℕ)) : Mat :=
  let F := cliques.foldl (fun J c => blockSet J c (fun _ _ => 1)) zeroMat
  fun a b => if a = b then 0 else F a b

/-- Weight-preserving sparse output (`__weighted_sparse_W_matrix`,
lines 210-216): set every clique block to the original weight values,
then zero the diagonal. -/
def weighted_J (original_W : Mat) (cliques : List (List ℕ)) : Mat :=
  let F := cliques.foldl (fun J c => blockSet J c original_W) zeroMat
  fun a b => if a = b then 0 else F a b

/-- Submatrix of `C` restricted to the index list `c`
(`C[np.ix_(c, c)]`). -/
def subMatrix (C : Mat) (c : List ℕ) : Matrix (Fin c.length) (Fin c.length) ℚ :=
  Matrix.of fun i j => C (c.get i) (c.get j)

/-- Exact matrix inverse over `ℚ` (`numpy.linalg.inv` on an invertible
matrix); the zero matrix when the determinant vanishes. -/
def minv {n : ℕ} (A : Matrix (Fin n) (Fin n) ℚ) : Matrix (Fin n) (Fin n) ℚ :=
  (A.det)⁻¹ • A.adjugate

/-- Accumulate `sgn * inv(C[np.ix_(c, c)])` into the block of `J` indexed
by `c` (`self.J[np.ix_(c, c)] += inv(...)` resp. `-= inv(...)`). -/
def scatter (sgn : ℚ) (C : Mat) (J : Mat) (c : List ℕ) : Mat :=
  fun a b =>
    if h : a ∈ c ∧ b ∈ c then
      J a b + sgn * minv (subMatrix C c)
        ⟨c.indexOf a, List.indexOf_lt_length.mpr h.1⟩
        ⟨c.indexOf b, List.indexOf_lt_length.mpr h.2⟩
    else J a b

/-- Local-global inversion output (`__logo`, lines 218-226): add each
clique's inverse covariance submatrix, subtract each separator's.  Note
that the Python code does not zero the diagonal in this mode.  The
covariance dimension only sizes the initial `np.zeros` array and has no
counterpart for function-valued matrices. -/
def logo_J (cov : Mat) (cliques separators : List (List ℕ)) : Mat :=
  let J1 := cliques.foldl (scatter 1 cov) zeroMat
  separators.foldl (scatter (-1) cov) J1

/-- Return value of `__compute_TMFG` (lines 182-190): the clique list,
the separator list, and `J` assembled by the mode selected in `fit`
(`if self.logo ... elif self.unweighted_sparse_W_matrix ... else`
weighted — the flags are the string comparisons of lines 40-53). -/
def compute_TMFG (weights : Mat) (N : ℕ) (cov : Mat) (output : String) :
    List (List ℕ) × List (List ℕ) × Mat :=
  let s := compute_TMFG_state weights N
  let J :=
    if output = "logo" then logo_J cov s.cliques s.separators
    else if output = "unweighted_sparse_W_matrix" then unweighted_J s.cliques
    else weighted_J s.original_W s.cliques
  (s.cliques, s.separators, J)

/-- The outputs a fitted `TMFG` instance exposes. -/
structure TMFGModel where
  cliques : List (List ℕ)
  separators : List (List ℕ)
  J : Mat

/-- Error taxonomy of section 7 of the spec, plus `IndexError`: the
generic out-of-range failure numpy raises when `__logo` indexes a
covariance matrix smaller than the weight matrix (it is not one of the
spec's errors).  `TMFG_core.py` contains no validation code and raises
none of the spec's four errors itself. -/
inductive TMFGError where
  | DimensionError
  | DegenerateInputError
  | SingularSubmatrixError
  | InvalidModeError
  | IndexError
deriving DecidableEq

/-- Result of `TMFG.fit` viewed as the state it leaves behind.  `N` is
`weights.shape[1]` (line 55); `_covN` is `cov.shape[0]`, which does not
influence the stored values themselves: it sizes the `np.zeros` array of
`__logo` (dimension-free for a function-valued `J`) and bounds the
indices `__logo` may use — that bound is enforced in `fit` below, where
an out-of-range access becomes the `IndexError` outcome. -/
def fitModel (weights : Mat) (N : ℕ) (cov : Mat) (_covN : ℕ) (output : String) : TMFGModel :=
  let t := compute_TMFG weights N cov output
  { cliques := t.1, separators := t.2.1, J := t.2.2 }

/-- `TMFG.fit` (lines 16-69) with the error channel made explicit.  The
Python method performs no input validation whatsoever; the only failure
it can actually produce is numpy's `IndexError`, raised inside `__logo`
when `C[np.ix_(c, c)]` (or the write into the `covN`-sized `J`) uses a
clique or separator vertex `≥ cov.shape[0]`.  None of the spec's four
errors is ever raised. -/
def fit (weights : Mat) (N : ℕ) (cov : Mat) (covN : ℕ) (output : String) :
    Except TMFGError TMFGModel :=
  let m := fitModel weights N cov covN output
  if output = "logo" then
    if ((m.cliques ++ m.separators).all (fun c => c.all (fun v => decide (v < covN)))) then
      Except.ok m
    else Except.error TMFGError.IndexError
  else Except.ok m

/-- `TMFG.transform` (lines 71-72). -/
def transform (m : TMFGModel) : List (List ℕ) × List (List ℕ) × Mat :=
  (m.cliques, m.separators, m.J)

/-- `TMFG.fit_transform` (lines 74-76): fit, then return the triple. -/
def fit_transform (weights : Mat) (N : ℕ) (cov : Mat) (covN : ℕ) (output : String) :
    List (List ℕ) × List (List ℕ) × Mat :=
  transform (fitModel weights N cov covN output)

/-- Variant of `step` with the two writes to the accumulator `P`
removed (claim C10); everything else is identical. -/
def stepNoP (s : TMFGState) : TMFGState :=
  let nt := argmax s.max_clique_gains
  let nvz := s.best_vertex.getD nt (-1)
  let nv := nvz.toNat
  let newsep := s.triangles.getD nt []
  let thetraedron := nv :: newsep
  let tris2 := (s.triangles.set nt [newsep.getD 0 0, newsep.getD 1 0, nv]) ++
               [[newsep.getD 0 0, newsep.getD 2 0, nv], [newsep.getD 1 0, newsep.getD 2 0, nv]]
  let vl2 := s.vertex_list.filter fun v => decide (v ≠ nv)
  let gb3 := updateGains s.W vl2 tris2 nt nvz s.max_clique_gains s.best_vertex
  { s with peo := s.peo ++ [nv], cliques := s.cliques ++ [thetraedron],
           separators := s.separators ++ [newsep], triangles := tris2,
           vertex_list := vl2,
           max_clique_gains := gb3.1, best_vertex := gb3.2 }

/-- Variant of `initState` with the write to `P` removed (claim C10). -/
def initStateNoP (weights : Mat) (N : ℕ) : TMFGState :=
  let c0 := max_clique weights N
  let vl := (List.range N).filter fun v => decide (v ∉ c0)
  let tris := [[c0.getD 0 0, c0.getD 1 0, c0.getD 2 0],
               [c0.getD 0 0, c0.getD 1 0, c0.getD 3 0],
               [c0.getD 0 0, c0.getD 2 0, c0.getD 3 0],
               [c0.getD 1 0, c0.getD 2 0, c0.getD 3 0]]
  let W0 := zeroDiag weights
  let gb0 : List ℚ × List ℤ := (List.replicate (3 * N - 6) 0, List.replicate (3 * N - 6) (-1))
  let gb1 := [0, 1, 2, 3].foldl (refresh W0 vl tris) gb0
  { N := N, W := W0, original_W := weights, P := zeroMat,
    max_clique_gains := gb1.1, best_vertex := gb1.2,
    cliques := [c0], separators := [], triangles := tris,
    peo := c0, vertex_list := vl }

/-- Full computation with all writes to `P` removed (claim C10). -/
def compute_TMFG_noP (weights : Mat) (N : ℕ) (cov : Mat) (output : String) :
    List (List ℕ) × List (List ℕ) × Mat :=
  let s := stepNoP^[N - 4] (initStateNoP weights N)
  let J :=
    if output = "logo" then logo_J cov s.cliques s.separators
    else if output = "unweighted_sparse_W_matrix" then unweighted_J s.cliques
    else weighted_J s.original_W s.cliques
  (s.cliques, s.separators, J)

/-- Ordered pairs of distinct vertices lying together in some clique of
the list: the edge set (in both directions) retained by the sparse
projectors. -/
def cliquePairs (cs : List (List ℕ)) : Finset (ℕ × ℕ) :=
  cs.foldr (fun c acc => c.toFinset.offDiag ∪ acc) ∅

/-- Number of nonzero off-diagonal entries of `J` on `[0, N) × [0, N)`. -/
def offDiagNonzeroCount (J : Mat) (N : ℕ) : ℕ :=
  ((Finset.range N ×ˢ Finset.range N).filter fun p => p.1 ≠ p.2 ∧ J p.1 p.2 ≠ 0).card

/-- Concrete matrix built from a row list (0 outside the rows). -/
def matOfLists (L : List (List ℚ)) : Mat := fun i j => (L.getD i []).getD j 0

/-- Concrete symmetric 5 × 5 weight matrix used to evaluate the
embedding (ten times the N = 5 scenario of section 8 of the spec). -/
def w5L : List (List ℚ) :=
  [[0, 9, 8, 1, 2],
   [9, 0, 7, 3, 1],
   [8, 7, 0, 2, 4],
   [1, 3, 2, 0, 6],
   [2, 1, 4, 6, 0]]

/-- Concrete 5 × 5 weight matrix as a function. -/
def w5c : Mat := matOfLists w5L

/-- Identity matrix of any ambient dimension (a valid covariance
matrix). -/
def idMat : Mat := fun i j => if i = j then 1 else 0

/-- All components of the engine state except the accumulator `P`
(claim C10 compares the computation with and without the `P` writes). -/
def sansP (s : TMFGState) :
    ℕ × Mat × Mat × List ℚ × List ℤ × List (List ℕ) × List (List ℕ) ×
      List (List ℕ) × List ℕ × List ℕ :=
  (s.N, s.W, s.original_W, s.max_clique_gains, s.best_vertex, s.cliques,
   s.separators, s.triangles, s.peo, s.vertex_list)

/-- Loop invariant of `__compute_TMFG` after `u` insertion iterations on
a nonnegative weight matrix `W` of dimension `N ≥ 4`. -/
structure Inv (W : Mat) (N : ℕ) (s : TMFGState) (u : ℕ) : Prop where
  hW : s.W = zeroDiag W
  hOW : s.original_W = W
  peo_nodup : s.peo.Nodup
  peo_lt : ∀ v ∈ s.peo, v < N
  peo_len : s.peo.length = 4 + u
  vl_eq : s.vertex_list = (List.range N).filter fun v => decide (v ∉ s.peo)
  tri_len : s.triangles.length = 4 + 2 * u
  g_len : s.max_clique_gains.length = 3 * N - 6
  b_len : s.best_vertex.length = 3 * N - 6
  tri_ok : ∀ tr ∈ s.triangles, tr.length = 3 ∧ tr.Nodup ∧ ∀ v ∈ tr, v ∈ s.peo
  b_live : s.vertex_list ≠ [] → ∀ t, t < s.triangles.length →
    ∃ v ∈ s.vertex_list, s.best_vertex.getD t (-1) = (v : ℤ)
  g_nonneg : ∀ t, 0 ≤ s.max_clique_gains.getD t 0
  b_dead : ∀ t, s.triangles.length ≤ t → s.best_vertex.getD t (-1) = -1
  g_dead : ∀ t, s.triangles.length ≤ t → s.max_clique_gains.getD t 0 = 0
  cl_len : s.cliques.length = 1 + u
  sep_len : s.separators.length = u
  cl_peo : ∀ c ∈ s.cliques, ∀ v ∈ c, v ∈ s.peo
  sep_peo : ∀ sp ∈ s.separators, ∀ v ∈ sp, v ∈ s.peo
  edge_face : ∀ tr ∈ s.triangles, tr.toFinset.offDiag ⊆ cliquePairs s.cliques
  edge_card : (cliquePairs s.cliques).card = 12 + 6 * u

/-! Basic list utilities. -/

theorem getD_set_self {α : Type} (l : List α) (i : ℕ) (v d : α) (h : i < l.length) :
    (l.set i v).getD i d = v := by
  rw [List.getD_eq_getElem?_getD, List.getElem?_set_self h]
  rfl

theorem getD_set_ne {α : Type} (l : List α) (i j : ℕ) (v d : α) (h : i ≠ j) :
    (l.set i v).getD j d = l.getD j d := by
  rw [List.getD_eq_getElem?_getD, List.getElem?_set_ne h, ← List.getD_eq_getElem?_getD]

theorem getD_mem {α : Type} (l : List α) (i : ℕ) (d : α) (h : i < l.length) :
    l.getD i d ∈ l := by
  rw [List.getD_eq_getElem?_getD, List.getElem?_eq_getElem h]
  exact List.getElem_mem h

theorem getD_replicate {α : Type} (n i : ℕ) (a : α) :
    (List.replicate n a).getD i a = a := by
  induction n generalizing i with
  | zero => rfl
  | succ m ih =>
      cases i with
      | zero => rfl
      | succ k => simpa [List.replicate_succ] using ih k

theorem toFinset_listRange (N : ℕ) : (List.range N).toFinset = Finset.range N := by
  ext v
  simp [List.mem_toFinset, List.mem_range, Finset.mem_range]

/-! Properties of `argmax` (the `np.argmax` of line 139). -/

theorem argmax_lt_length : ∀ (l : List ℚ), l ≠ [] → argmax l < l.length
  | [], h => absurd rfl h
  | [x], _ => by simp [argmax]
  | x :: y :: t, _ => by
      by_cases hx : x < (y :: t).getD (argmax (y :: t)) 0
      · rw [argmax, if_pos hx]
        exact Nat.succ_lt_succ (argmax_lt_length (y :: t) (by simp))
      · rw [argmax, if_neg hx]
        simp

theorem argmax_spec_le : ∀ (l : List ℚ) (i : ℕ), i < l.length →
    l.getD i 0 ≤ l.getD (argmax l) 0
  | [], _, h => by simp at h
  | [x], i, h => by
      have hi : i = 0 := Nat.lt_one_iff.mp (by simpa using h)
      subst hi
      simp [argmax]
  | x :: y :: t, i, h => by
      by_cases hx : x < (y :: t).getD (argmax (y :: t)) 0
      · rw [argmax, if_pos hx, List.getD_cons_succ]
        cases i with
        | zero => exact le_of_lt hx
        | succ j =>
            rw [List.getD_cons_succ]
            exact argmax_spec_le (y :: t) j (by simpa using h)
      · rw [argmax, if_neg hx, List.getD_cons_zero]
        push_neg at hx
        cases i with
        | zero => simp
        | succ j =>
            rw [List.getD_cons_succ]
            exact le_trans (argmax_spec_le (y :: t) j (by simpa using h)) hx

theorem argmax_first : ∀ (l : List ℚ) (i : ℕ), i < argmax l →
    l.getD i 0 < l.getD (argmax l) 0
  | [], _, h => by simp [argmax] at h
  | [x], i, h => by simp [argmax] at h
  | x :: y :: t, i, h => by
      by_cases hx : x < (y :: t).getD (argmax (y :: t)) 0
      · rw [argmax, if_pos hx] at h ⊢
        rw [List.getD_cons_succ]
        cases i with
        | zero => rw [List.getD_cons_zero]; exact hx
        | succ j =>
            rw [List.getD_cons_succ]
            exact argmax_first (y :: t) j (Nat.lt_of_succ_lt_succ h)
      · rw [argmax, if_neg hx] at h
        omega

/-- If all entries are nonnegative and every entry at index ≥ `K`
vanishes, the first maximizer lies below `K`. -/
theorem argmax_lt_of_tail_zero (l : List ℚ) (K : ℕ) (hK : 0 < K) (hlen : 0 < l.length)
    (hnn : ∀ i, 0 ≤ l.getD i 0) (hz : ∀ i, K ≤ i → l.getD i 0 = 0) :
    argmax l < K := by
  by_contra hcon
  push_neg at hcon
  have hm0 : l.getD (argmax l) 0 = 0 := hz _ hcon
  have h0 : l.getD 0 0 < l.getD (argmax l) 0 :=
    argmax_first l 0 (lt_of_lt_of_le hK hcon)
  rw [hm0] at h0
  exact absurd (lt_of_le_of_lt (hnn 0) h0) (lt_irrefl 0)

/-! Properties of `get_best_gain`. -/

theorem foldl_best_choice (g : ℕ → ℚ) : ∀ (vs : List ℕ) (v : ℕ),
    ∃ x, (x = v ∨ x ∈ vs) ∧
      vs.foldl (fun b v2 => if b.2 < g v2 then ((v2 : ℤ), g v2) else b) ((v : ℤ), g v) =
        ((x : ℤ), g x)
  | [], v => ⟨v, Or.inl rfl, rfl⟩
  | v2 :: vs, v => by
      simp only [List.foldl_cons]
      by_cases h : g v < g v2
      · simp only [h, if_true]
        obtain ⟨x, hx, he⟩ := foldl_best_choice g vs v2
        refine ⟨x, ?_, he⟩
        rcases hx with h' | h'
        · exact Or.inr (by simp [h'])
        · exact Or.inr (List.mem_cons_of_mem _ h')
      · simp only [h, if_false]
        obtain ⟨x, hx, he⟩ := foldl_best_choice g vs v
        refine ⟨x, ?_, he⟩
        rcases hx with h' | h'
        · exact Or.inl h'
        · exact Or.inr (List.mem_cons_of_mem _ h')

theorem get_best_gain_mem (vl tri : List ℕ) (W : Mat) (h : vl ≠ []) :
    ∃ x ∈ vl, get_best_gain vl tri W = ((x : ℤ), gainOf W tri x) := by
  match vl with
  | [] => exact absurd rfl h
  | v :: vs =>
      obtain ⟨x, hx, he⟩ := foldl_best_choice (gainOf W tri) vs v
      refine ⟨x, ?_, he⟩
      rcases hx with h' | h'
      · simp [h']
      · exact List.mem_cons_of_mem _ h'

theorem gainOf_nonneg (W : Mat) (tri : List ℕ) (v : ℕ) (hW : ∀ i j, 0 ≤ W i j) :
    0 ≤ gainOf W tri v := by
  unfold gainOf
  have h1 := hW v (tri.getD 0 0)
  have h2 := hW v (tri.getD 1 0)
  have h3 := hW v (tri.getD 2 0)
  linarith

theorem get_best_gain_snd_nonneg (vl tri : List ℕ) (W : Mat) (hW : ∀ i j, 0 ≤ W i j) :
    0 ≤ (get_best_gain vl tri W).2 := by
  match vl with
  | [] => simp [get_best_gain]
  | v :: vs =>
      obtain ⟨x, _, he⟩ := get_best_gain_mem (v :: vs) tri W (by simp)
      rw [he]
      exact gainOf_nonneg W tri x hW

/-! Properties of the gain-refresh folds. -/

theorem refresh_foldl_length (W : Mat) (vl : List ℕ) (tris : List (List ℕ)) :
    ∀ (idxs : List ℕ) (gb : List ℚ × List ℤ),
      ((idxs.foldl (refresh W vl tris) gb).1.length = gb.1.length ∧
       (idxs.foldl (refresh W vl tris) gb).2.length = gb.2.length)
  | [], _ => ⟨rfl, rfl⟩
  | i :: rest, gb => by
      have := refresh_foldl_length W vl tris rest (refresh W vl tris gb i)
      simpa [refresh, List.length_set] using this

theorem refresh_foldl_not_mem (W : Mat) (vl : List ℕ) (tris : List (List ℕ)) :
    ∀ (idxs : List ℕ) (gb : List ℚ × List ℤ) (t : ℕ), t ∉ idxs →
      ((idxs.foldl (refresh W vl tris) gb).1.getD t 0 = gb.1.getD t 0 ∧
       (idxs.foldl (refresh W vl tris) gb).2.getD t (-1) = gb.2.getD t (-1))
  | [], _, _, _ => ⟨rfl, rfl⟩
  | i :: rest, gb, t, h => by
      have hne : i ≠ t := fun he => h (by simp [he])
      have hrest : t ∉ rest := fun hm => h (List.mem_cons_of_mem _ hm)
      have ih := refresh_foldl_not_mem W vl tris rest (refresh W vl tris gb i) t hrest
      rw [List.foldl_cons]
      exact ⟨ih.1.trans (getD_set_ne _ _ _ _ _ hne),
             ih.2.trans (getD_set_ne _ _ _ _ _ hne)⟩

theorem refresh_foldl_mem (W : Mat) (vl : List ℕ) (tris : List (List ℕ)) :
    ∀ (idxs : List ℕ) (gb : List ℚ × List ℤ) (t : ℕ), idxs.Nodup → t ∈ idxs →
      t < gb.1.length → t < gb.2.length →
      ((idxs.foldl (refresh W vl tris) gb).1.getD t 0 =
          (get_best_gain vl (tris.getD t []) W).2 ∧
       (idxs.foldl (refresh W vl tris) gb).2.getD t (-1) =
          (get_best_gain vl (tris.getD t []) W).1)
  | [], _, _, _, ht, _, _ => by simp at ht
  | i :: rest, gb, t, hnd, ht, h1, h2 => by
      rw [List.foldl_cons]
      rcases List.mem_cons.mp ht with he | hm
      · subst he
        have hrest : t ∉ rest := (List.nodup_cons.mp hnd).1
        have hnm := refresh_foldl_not_mem W vl tris rest (refresh W vl tris gb t) t hrest
        refine ⟨hnm.1.trans ?_, hnm.2.trans ?_⟩
        · exact getD_set_self _ _ _ _ h1
        · exact getD_set_self _ _ _ _ h2
      · exact refresh_foldl_mem W vl tris rest (refresh W vl tris gb i) t
          (List.nodup_cons.mp hnd).2 hm
          (by simpa [refresh, List.length_set] using h1)
          (by simpa [refresh, List.length_set] using h2)

/-! Properties of the modelled seed-clique selector. -/

theorem mem_quadruples {N : ℕ} {q : List ℕ} :
    q ∈ quadruples N ↔ ∃ a b c d : ℕ, q = [a, b, c, d] ∧ a < b ∧ b < c ∧ c < d ∧ d < N := by
  constructor
  · intro h
    simp only [quadruples, List.mem_flatMap, List.mem_filterMap, List.mem_range] at h
    obtain ⟨a, _, b, _, c, _, d, hd, hif⟩ := h
    by_cases hcond : a < b ∧ b < c ∧ c < d
    · rw [if_pos hcond] at hif
      exact ⟨a, b, c, d, (Option.some_inj.mp hif).symm, hcond.1, hcond.2.1, hcond.2.2, hd⟩
    · rw [if_neg hcond] at hif
      exact absurd hif (Option.noConfusion)
  · rintro ⟨a, b, c, d, rfl, h1, h2, h3, h4⟩
    simp only [quadruples, List.mem_flatMap, List.mem_filterMap, List.mem_range]
    refine ⟨a, by omega, b, by omega, c, by omega, d, h4, ?_⟩
    rw [if_pos ⟨h1, h2, h3⟩]

theorem quadruples_ne_nil {N : ℕ} (h : 4 ≤ N) : quadruples N ≠ [] :=
  List.ne_nil_of_mem (mem_quadruples.mpr ⟨0, 1, 2, 3, rfl, by omega, by omega, by omega, by omega⟩)

theorem foldl_ite_mem {α : Type} (sc : α → ℚ) : ∀ (l : List α) (a : α),
    (l.foldl (fun best x => if sc best < sc x then x else best) a) = a ∨
      (l.foldl (fun best x => if sc best < sc x then x else best) a) ∈ l
  | [], _ => Or.inl rfl
  | x :: xs, a => by
      rw [List.foldl_cons]
      by_cases h : sc a < sc x
      · rw [if_pos h]
        rcases foldl_ite_mem sc xs x with he | hm
        · exact Or.inr (by simp [he])
        · exact Or.inr (List.mem_cons_of_mem _ hm)
      · rw [if_neg h]
        rcases foldl_ite_mem sc xs a with he | hm
        · exact Or.inl he
        · exact Or.inr (List.mem_cons_of_mem _ hm)

theorem max_clique_mem (W : Mat) {N : ℕ} (h : 4 ≤ N) : max_clique W N ∈ quadruples N := by
  rcases hq : quadruples N with _ | ⟨q, qs⟩
  · exact absurd hq (quadruples_ne_nil h)
  · have heq : max_clique W N =
        List.foldl (fun best q2 => if quadScore W best < quadScore W q2 then q2 else best) q qs := by
      unfold max_clique
      rw [hq]
    rw [heq]
    rcases foldl_ite_mem (quadScore W) qs q with he | hm
    · exact List.mem_cons.mpr (Or.inl he)
    · exact List.mem_cons.mpr (Or.inr hm)

theorem max_clique_shape (W : Mat) {N : ℕ} (h : 4 ≤ N) :
    ∃ a b c d : ℕ, max_clique W N = [a, b, c, d] ∧ a < b ∧ b < c ∧ c < d ∧ d < N :=
  mem_quadruples.mp (max_clique_mem W h)

/-! Characterization of `updateGains`. -/

theorem updateGains_fst_length (W : Mat) (vl2 : List ℕ) (tris2 : List (List ℕ))
    (nt : ℕ) (nvz : ℤ) (gains : List ℚ) (best : List ℤ) :
    (updateGains W vl2 tris2 nt nvz gains best).1.length = gains.length := by
  unfold updateGains
  by_cases he : vl2.isEmpty
  · simp [he, List.length_set]
  · have hef : vl2.isEmpty = false := by simpa using he
    simp only [hef, Bool.false_eq_true, if_false]
    rw [(refresh_foldl_length W vl2 tris2 _ _).1, List.length_set,
        (refresh_foldl_length W vl2 tris2 _ _).1]

theorem updateGains_snd_length (W : Mat) (vl2 : List ℕ) (tris2 : List (List ℕ))
    (nt : ℕ) (nvz : ℤ) (gains : List ℚ) (best : List ℤ) :
    (updateGains W vl2 tris2 nt nvz gains best).2.length = best.length := by
  unfold updateGains
  by_cases he : vl2.isEmpty
  · simp [he]
  · have hef : vl2.isEmpty = false := by simpa using he
    simp only [hef, Bool.false_eq_true, if_false]
    rw [(refresh_foldl_length W vl2 tris2 _ _).2,
        (refresh_foldl_length W vl2 tris2 _ _).2]

theorem updateGains_empty (W : Mat) (vl2 : List ℕ) (tris2 : List (List ℕ))
    (nt : ℕ) (nvz : ℤ) (gains : List ℚ) (best : List ℤ) (he : vl2.isEmpty = true) :
    updateGains W vl2 tris2 nt nvz gains best = (gains.set nt 0, best) := by
  unfold updateGains
  simp [he]

/-- The slots refreshed during one nonterminal iteration: the two newly
created faces, the mutated slot `nt`, and every slot whose cached best
vertex was just consumed; all other slots keep their cached pair. -/
theorem updateGains_getD (W : Mat) (vl2 : List ℕ) (tris2 : List (List ℕ))
    (nt : ℕ) (nvz : ℤ) (gains : List ℚ) (best : List ℤ) (t : ℕ)
    (he : vl2.isEmpty = false) (hnt : nt < tris2.length - 2)
    (ht1 : t < gains.length) (ht2 : t < best.length) :
    ((updateGains W vl2 tris2 nt nvz gains best).1.getD t 0,
     (updateGains W vl2 tris2 nt nvz gains best).2.getD t (-1)) =
      if t = nt ∨ t = tris2.length - 2 ∨ t = tris2.length - 1 ∨ best.getD t (-1) = nvz then
        ((get_best_gain vl2 (tris2.getD t []) W).2, (get_best_gain vl2 (tris2.getD t []) W).1)
      else (gains.getD t 0, best.getD t (-1)) := by
  have hct : 2 ≤ tris2.length := by omega
  have hpass2nd : ([nt, tris2.length - 1 - 1, tris2.length - 1] : List ℕ).Nodup := by
    simp
    omega
  have hidx_nd : (((List.range best.length).filter
      fun t => decide (best.getD t (-1) = nvz))).Nodup :=
    (List.nodup_range best.length).filter _
  have hidx_mem : ∀ u : ℕ, (u ∈ (List.range best.length).filter
      fun t => decide (best.getD t (-1) = nvz)) ↔ u < best.length ∧ best.getD u (-1) = nvz := by
    intro u
    simp [List.mem_filter, List.mem_range]
  unfold updateGains
  simp only [he, Bool.false_eq_true, if_false]
  set idxs := (List.range best.length).filter fun t => decide (best.getD t (-1) = nvz) with hidxs
  set gb1 := idxs.foldl (refresh W vl2 tris2) (gains, best) with hgb1
  have hgb1len : gb1.1.length = gains.length ∧ gb1.2.length = best.length :=
    refresh_foldl_length W vl2 tris2 idxs (gains, best)
  by_cases hp2 : t = nt ∨ t = tris2.length - 1 - 1 ∨ t = tris2.length - 1
  · have hmem : t ∈ ([nt, tris2.length - 1 - 1, tris2.length - 1] : List ℕ) := by
      simpa using hp2
    have := refresh_foldl_mem W vl2 tris2 [nt, tris2.length - 1 - 1, tris2.length - 1]
      (gb1.1.set nt 0, gb1.2) t hpass2nd hmem
      (by simp [List.length_set, hgb1len.1]; omega) (by simp [hgb1len.2]; omega)
    rw [Prod.mk.injEq]
    have hcond : t = nt ∨ t = tris2.length - 2 ∨ t = tris2.length - 1 ∨
        best.getD t (-1) = nvz := by
      rcases hp2 with h | h | h
      · exact Or.inl h
      · exact Or.inr (Or.inl (by omega))
      · exact Or.inr (Or.inr (Or.inl h))
    rw [if_pos hcond]
    exact ⟨this.1, this.2⟩
  · have hnmem : t ∉ ([nt, tris2.length - 1 - 1, tris2.length - 1] : List ℕ) := by
      simpa using hp2
    have hpass2 := refresh_foldl_not_mem W vl2 tris2
      [nt, tris2.length - 1 - 1, tris2.length - 1] (gb1.1.set nt 0, gb1.2) t hnmem
    have htnt : t ≠ nt := fun h => hp2 (Or.inl h)
    have hset : (gb1.1.set nt 0).getD t 0 = gb1.1.getD t 0 :=
      getD_set_ne _ _ _ _ _ (Ne.symm htnt)
    by_cases hp1 : best.getD t (-1) = nvz
    · have hmem1 : t ∈ idxs := (hidx_mem t).mpr ⟨ht2, hp1⟩
      have := refresh_foldl_mem W vl2 tris2 idxs (gains, best) t hidx_nd hmem1 ht1 ht2
      rw [Prod.mk.injEq]
      rw [if_pos (Or.inr (Or.inr (Or.inr hp1)))]
      exact ⟨hpass2.1.trans (hset.trans this.1), hpass2.2.trans this.2⟩
    · have hnmem1 : t ∉ idxs := fun hm => hp1 ((hidx_mem t).mp hm).2
      have := refresh_foldl_not_mem W vl2 tris2 idxs (gains, best) t hnmem1
      rw [Prod.mk.injEq]
      have hcond : ¬(t = nt ∨ t = tris2.length - 2 ∨ t = tris2.length - 1 ∨
          best.getD t (-1) = nvz) := by
        rintro (h | h | h | h)
        · exact htnt h
        · exact hp2 (Or.inr (Or.inl (by omega)))
        · exact hp2 (Or.inr (Or.inr h))
        · exact hp1 h
      rw [if_neg hcond]
      exact ⟨hpass2.1.trans (hset.trans this.1), hpass2.2.trans this.2⟩

/-! Shape of one `step`. -/

theorem step_N (s : TMFGState) : (step s).N = s.N := rfl

theorem step_W (s : TMFGState) : (step s).W = s.W := rfl

theorem step_original_W (s : TMFGState) : (step s).original_W = s.original_W := rfl

theorem step_peo (s : TMFGState) :
    (step s).peo = s.peo ++ [(s.best_vertex.getD (argmax s.max_clique_gains) (-1)).toNat] := rfl

theorem step_cliques (s : TMFGState) :
    (step s).cliques = s.cliques ++
      [(s.best_vertex.getD (argmax s.max_clique_gains) (-1)).toNat ::
        s.triangles.getD (argmax s.max_clique_gains) []] := rfl

theorem step_separators (s : TMFGState) :
    (step s).separators = s.separators ++ [s.triangles.getD (argmax s.max_clique_gains) []] := rfl

theorem step_triangles (s : TMFGState) :
    (step s).triangles =
      (s.triangles.set (argmax s.max_clique_gains)
        [(s.triangles.getD (argmax s.max_clique_gains) []).getD 0 0,
         (s.triangles.getD (argmax s.max_clique_gains) []).getD 1 0,
         (s.best_vertex.getD (argmax s.max_clique_gains) (-1)).toNat]) ++
      [[(s.triangles.getD (argmax s.max_clique_gains) []).getD 0 0,
        (s.triangles.getD (argmax s.max_clique_gains) []).getD 2 0,
        (s.best_vertex.getD (argmax s.max_clique_gains) (-1)).toNat],
       [(s.triangles.getD (argmax s.max_clique_gains) []).getD 1 0,
        (s.triangles.getD (argmax s.max_clique_gains) []).getD 2 0,
        (s.best_vertex.getD (argmax s.max_clique_gains) (-1)).toNat]] := rfl

theorem step_vertex_list (s : TMFGState) :
    (step s).vertex_list = s.vertex_list.filter
      (fun v => decide (v ≠ (s.best_vertex.getD (argmax s.max_clique_gains) (-1)).toNat)) := rfl

theorem step_gains (s : TMFGState) :
    (step s).max_clique_gains = (updateGains s.W (step s).vertex_list (step s).triangles
      (argmax s.max_clique_gains) (s.best_vertex.getD (argmax s.max_clique_gains) (-1))
      s.max_clique_gains s.best_vertex).1 := rfl

theorem step_best (s : TMFGState) :
    (step s).best_vertex = (updateGains s.W (step s).vertex_list (step s).triangles
      (argmax s.max_clique_gains) (s.best_vertex.getD (argmax s.max_clique_gains) (-1))
      s.max_clique_gains s.best_vertex).2 := rfl

theorem step_triangles_length (s : TMFGState) :
    (step s).triangles.length = s.triangles.length + 2 := by
  rw [step_triangles]
  simp [List.length_set]

theorem step_gains_length (s : TMFGState) :
    (step s).max_clique_gains.length = s.max_clique_gains.length := by
  rw [step_gains, updateGains_fst_length]

theorem step_best_length (s : TMFGState) :
    (step s).best_vertex.length = s.best_vertex.length := by
  rw [step_best, updateGains_snd_length]

/-! Supporting lemmas for the loop invariant. -/

theorem mem_filter_range {N v : ℕ} {p : List ℕ} :
    (v ∈ (List.range N).filter fun x => decide (x ∉ p)) ↔ v < N ∧ v ∉ p := by
  simp [List.mem_filter, List.mem_range]

theorem filter_range_length (N : ℕ) (p : List ℕ) (hnd : p.Nodup) (hlt : ∀ v ∈ p, v < N) :
    ((List.range N).filter fun v => decide (v ∉ p)).length = N - p.length := by
  have hnd2 : ((List.range N).filter fun v => decide (v ∉ p)).Nodup :=
    (List.nodup_range N).filter _
  rw [← List.toFinset_card_of_nodup hnd2, List.toFinset_filter, toFinset_listRange]
  have hsub : p.toFinset ⊆ Finset.range N := by
    intro v hv
    exact Finset.mem_range.mpr (hlt v (List.mem_toFinset.mp hv))
  have : (Finset.range N).filter (fun x => decide (x ∉ p) = true) =
      Finset.range N \ p.toFinset := by
    rw [Finset.sdiff_eq_filter]
    apply Finset.filter_congr
    intro x _
    simp [List.mem_toFinset]
  rw [this, Finset.card_sdiff hsub, Finset.card_range,
      List.toFinset_card_of_nodup hnd]

theorem mem_cliquePairs {cs : List (List ℕ)} {p : ℕ × ℕ} :
    p ∈ cliquePairs cs ↔ ∃ c ∈ cs, p.1 ∈ c ∧ p.2 ∈ c ∧ p.1 ≠ p.2 := by
  induction cs with
  | nil => simp [cliquePairs]
  | cons c cs ih =>
      simp only [cliquePairs, List.foldr_cons, Finset.mem_union, List.mem_cons]
      rw [Finset.mem_offDiag]
      constructor
      · rintro (⟨h1, h2, h3⟩ | hm)
        · exact ⟨c, Or.inl rfl, List.mem_toFinset.mp h1, List.mem_toFinset.mp h2, h3⟩
        · obtain ⟨c2, hc2, h⟩ := ih.mp hm
          exact ⟨c2, Or.inr hc2, h⟩
      · rintro ⟨c2, hc2 | hc2, h⟩
        · subst hc2
          exact Or.inl ⟨List.mem_toFinset.mpr h.1, List.mem_toFinset.mpr h.2.1, h.2.2⟩
        · exact Or.inr (ih.mpr ⟨c2, hc2, h⟩)

theorem cliquePairs_append (cs : List (List ℕ)) (c : List ℕ) :
    cliquePairs (cs ++ [c]) = cliquePairs cs ∪ c.toFinset.offDiag := by
  induction cs with
  | nil => simp [cliquePairs]
  | cons a cs ih =>
      simp only [cliquePairs, List.cons_append, List.foldr_cons] at ih ⊢
      rw [ih, Finset.union_assoc]

theorem offDiag_subset_of_subset {s t : Finset ℕ} (h : s ⊆ t) : s.offDiag ⊆ t.offDiag := by
  intro p hp
  rw [Finset.mem_offDiag] at hp ⊢
  exact ⟨h hp.1, h hp.2.1, hp.2.2⟩

theorem zeroDiag_nonneg (W : Mat) (hW : ∀ i j, 0 ≤ W i j) : ∀ i j, 0 ≤ zeroDiag W i j := by
  intro i j
  unfold zeroDiag
  by_cases h : i = j
  · simp [h]
  · simpa [h] using hW i j

/-! The invariant holds initially. -/

theorem initState_peo (W : Mat) (N : ℕ) : (initState W N).peo = max_clique W N := rfl

theorem initState_cliques (W : Mat) (N : ℕ) :
    (initState W N).cliques = [max_clique W N] := rfl

theorem initState_separators (W : Mat) (N : ℕ) : (initState W N).separators = [] := rfl

theorem initState_vertex_list (W : Mat) (N : ℕ) :
    (initState W N).vertex_list =
      (List.range N).filter fun v => decide (v ∉ max_clique W N) := rfl

theorem initState_triangles (W : Mat) (N : ℕ) :
    (initState W N).triangles =
      [[(max_clique W N).getD 0 0, (max_clique W N).getD 1 0, (max_clique W N).getD 2 0],
       [(max_clique W N).getD 0 0, (max_clique W N).getD 1 0, (max_clique W N).getD 3 0],
       [(max_clique W N).getD 0 0, (max_clique W N).getD 2 0, (max_clique W N).getD 3 0],
       [(max_clique W N).getD 1 0, (max_clique W N).getD 2 0, (max_clique W N).getD 3 0]] := rfl

theorem inv_init (W : Mat) (N : ℕ) (hN : 4 ≤ N) (hW : ∀ i j, 0 ≤ W i j) :
    Inv W N (initState W N) 0 := by
  obtain ⟨a, b, c, d, hc0, hab, hbc, hcd, hdN⟩ := max_clique_shape W hN
  have hW0 : ∀ i j, 0 ≤ zeroDiag W i j := zeroDiag_nonneg W hW
  have hlen6 : 6 ≤ 3 * N - 6 := by omega
  have hgb : ∀ t : ℕ, t < 4 →
      ((initState W N).max_clique_gains.getD t 0 =
        (get_best_gain ((List.range N).filter fun v => decide (v ∉ max_clique W N))
          ((initState W N).triangles.getD t []) (zeroDiag W)).2 ∧
       (initState W N).best_vertex.getD t (-1) =
        (get_best_gain ((List.range N).filter fun v => decide (v ∉ max_clique W N))
          ((initState W N).triangles.getD t []) (zeroDiag W)).1) := by
    intro t ht
    have hmem : t ∈ ([0, 1, 2, 3] : List ℕ) := by
      interval_cases t <;> simp
    have hnd : ([0, 1, 2, 3] : List ℕ).Nodup := by decide
    have := refresh_foldl_mem (zeroDiag W)
      ((List.range N).filter fun v => decide (v ∉ max_clique W N))
      [[(max_clique W N).getD 0 0, (max_clique W N).getD 1 0, (max_clique W N).getD 2 0],
       [(max_clique W N).getD 0 0, (max_clique W N).getD 1 0, (max_clique W N).getD 3 0],
       [(max_clique W N).getD 0 0, (max_clique W N).getD 2 0, (max_clique W N).getD 3 0],
       [(max_clique W N).getD 1 0, (max_clique W N).getD 2 0, (max_clique W N).getD 3 0]]
      [0, 1, 2, 3]
      (List.replicate (3 * N - 6) 0, List.replicate (3 * N - 6) (-1)) t hnd hmem
      (by simp [List.length_replicate]; omega) (by simp [List.length_replicate]; omega)
    exact this
  have hnotmem : ∀ t : ℕ, 4 ≤ t →
      ((initState W N).max_clique_gains.getD t 0 = 0 ∧
       (initState W N).best_vertex.getD t (-1) = -1) := by
    intro t ht
    have hnm : t ∉ ([0, 1, 2, 3] : List ℕ) := by
      simp
      omega
    have := refresh_foldl_not_mem (zeroDiag W)
      ((List.range N).filter fun v => decide (v ∉ max_clique W N))
      [[(max_clique W N).getD 0 0, (max_clique W N).getD 1 0, (max_clique W N).getD 2 0],
       [(max_clique W N).getD 0 0, (max_clique W N).getD 1 0, (max_clique W N).getD 3 0],
       [(max_clique W N).getD 0 0, (max_clique W N).getD 2 0, (max_clique W N).getD 3 0],
       [(max_clique W N).getD 1 0, (max_clique W N).getD 2 0, (max_clique W N).getD 3 0]]
      [0, 1, 2, 3]
      (List.replicate (3 * N - 6) 0, List.replicate (3 * N - 6) (-1)) t hnm
    refine ⟨this.1.trans ?_, this.2.trans ?_⟩
    · exact getD_replicate _ _ _
    · exact getD_replicate _ _ _
  have hlen : (initState W N).max_clique_gains.length = 3 * N - 6 ∧
      (initState W N).best_vertex.length = 3 * N - 6 := by
    have := refresh_foldl_length (zeroDiag W)
      ((List.range N).filter fun v => decide (v ∉ max_clique W N))
      [[(max_clique W N).getD 0 0, (max_clique W N).getD 1 0, (max_clique W N).getD 2 0],
       [(max_clique W N).getD 0 0, (max_clique W N).getD 1 0, (max_clique W N).getD 3 0],
       [(max_clique W N).getD 0 0, (max_clique W N).getD 2 0, (max_clique W N).getD 3 0],
       [(max_clique W N).getD 1 0, (max_clique W N).getD 2 0, (max_clique W N).getD 3 0]]
      [0, 1, 2, 3]
      (List.replicate (3 * N - 6) 0, List.replicate (3 * N - 6) (-1))
    constructor
    · exact this.1.trans (List.length_replicate _ _)
    · exact this.2.trans (List.length_replicate _ _)
  have hpeo_nodup : (max_clique W N).Nodup := by
    rw [hc0]
    simp
    omega
  have hpeo_lt : ∀ v ∈ max_clique W N, v < N := by
    intro v hv
    rw [hc0] at hv
    simp at hv
    rcases hv with rfl | rfl | rfl | rfl <;> omega
  have hg0 : (max_clique W N).getD 0 0 = a := by rw [hc0]; rfl
  have hg1 : (max_clique W N).getD 1 0 = b := by rw [hc0]; rfl
  have hg2 : (max_clique W N).getD 2 0 = c := by rw [hc0]; rfl
  have hg3 : (max_clique W N).getD 3 0 = d := by rw [hc0]; rfl
  have htris : (initState W N).triangles = [[a, b, c], [a, b, d], [a, c, d], [b, c, d]] := by
    rw [initState_triangles, hg0, hg1, hg2, hg3]
  refine ⟨rfl, rfl, hpeo_nodup, hpeo_lt,
    by show (max_clique W N).length = 4 + 0; rw [hc0]; rfl,
    rfl, rfl, hlen.1, hlen.2, ?_, ?_, ?_, ?_, ?_, rfl, rfl, ?_, ?_, ?_, ?_⟩
  · -- tri_ok
    intro tr htr
    rw [htris] at htr
    have hpeo : (initState W N).peo = [a, b, c, d] := by rw [initState_peo, hc0]
    simp only [List.mem_cons, List.not_mem_nil, or_false] at htr
    rw [hpeo]
    rcases htr with rfl | rfl | rfl | rfl <;>
      refine ⟨rfl, by simp; omega, ?_⟩ <;>
        (intro v hv
         simp only [List.mem_cons, List.not_mem_nil, or_false] at hv ⊢
         tauto)
  · -- b_live
    intro hvl t ht
    simp only [initState] at ht
    have ht4 : t < 4 := by simpa using ht
    have := (hgb t ht4).2
    obtain ⟨x, hx, he⟩ := get_best_gain_mem
      ((List.range N).filter fun v => decide (v ∉ max_clique W N))
      ((initState W N).triangles.getD t []) (zeroDiag W) (by simpa [initState] using hvl)
    exact ⟨x, by simpa [initState] using hx, by rw [this, he]⟩
  · -- g_nonneg
    intro t
    by_cases ht : t < 4
    · rw [(hgb t ht).1]
      exact get_best_gain_snd_nonneg _ _ _ hW0
    · rw [(hnotmem t (by omega)).1]
  · -- b_dead
    intro t ht
    simp only [initState] at ht
    exact (hnotmem t (by simpa using ht)).2
  · -- g_dead
    intro t ht
    simp only [initState] at ht
    exact (hnotmem t (by simpa using ht)).1
  · -- cl_peo
    intro cl hcl v hv
    simp only [initState, List.mem_singleton] at hcl
    subst hcl
    exact hv
  · -- sep_peo
    intro sp hsp
    rw [initState_separators] at hsp
    exact absurd hsp (List.not_mem_nil sp)
  · -- edge_face
    intro tr htr
    rw [htris] at htr
    have hsub : tr.toFinset ⊆ (max_clique W N).toFinset := by
      intro v hv
      rw [List.mem_toFinset] at hv ⊢
      rw [hc0]
      simp only [List.mem_cons, List.not_mem_nil, or_false] at htr
      rcases htr with rfl | rfl | rfl | rfl <;>
        (simp only [List.mem_cons, List.not_mem_nil, or_false] at hv ⊢; tauto)
    intro p hp
    have hpd : p ∈ (max_clique W N).toFinset.offDiag := offDiag_subset_of_subset hsub hp
    rw [Finset.mem_offDiag] at hpd
    exact mem_cliquePairs.mpr ⟨max_clique W N, by rw [initState_cliques]; simp,
      List.mem_toFinset.mp hpd.1, List.mem_toFinset.mp hpd.2.1, hpd.2.2⟩
  · -- edge_card
    have hcard : (max_clique W N).toFinset.card = 4 := by
      rw [List.toFinset_card_of_nodup hpeo_nodup, hc0]
      rfl
    have : cliquePairs (initState W N).cliques = (max_clique W N).toFinset.offDiag := by
      simp [cliquePairs, initState]
    rw [this, Finset.offDiag_card, hcard]

/-! The invariant is preserved by one nonterminal iteration. -/

theorem inv_step (W : Mat) (N : ℕ) (s : TMFGState) (u : ℕ)
    (hN : 4 ≤ N) (hWnn : ∀ i j, 0 ≤ W i j) (hu : u < N - 4) (hs : Inv W N s u) :
    Inv W N (step s) (u + 1) := by
  obtain ⟨hW, hOW, pnd, plt, plen, vleq, trlen, glen, blen, triok, blive, gnn, bdead,
    gdead, cllen, seplen, clpeo, seppeo, eface, ecard⟩ := hs
  have hW0 : ∀ i j, 0 ≤ s.W i j := by rw [hW]; exact zeroDiag_nonneg W hWnn
  have hvl_len : s.vertex_list.length = N - (4 + u) := by
    rw [vleq, filter_range_length N s.peo pnd plt, plen]
  have hvl_ne : s.vertex_list ≠ [] := by
    rw [← List.length_pos]
    omega
  have hnt_lt : argmax s.max_clique_gains < s.triangles.length := by
    apply argmax_lt_of_tail_zero s.max_clique_gains s.triangles.length
      (by omega) (by rw [glen]; omega) gnn gdead
  obtain ⟨v, hvmem, hveq⟩ := blive hvl_ne _ hnt_lt
  have hnv : (s.best_vertex.getD (argmax s.max_clique_gains) (-1)).toNat = v := by
    rw [hveq, Int.toNat_natCast]
  have hvrange : v < N ∧ v ∉ s.peo := mem_filter_range.mp (vleq ▸ hvmem)
  have hns_mem : s.triangles.getD (argmax s.max_clique_gains) [] ∈ s.triangles :=
    getD_mem _ _ _ hnt_lt
  obtain ⟨hns_len, hns_nodup, hns_peo⟩ := triok _ hns_mem
  obtain ⟨a0, a1, a2, hsep⟩ := List.length_eq_three.mp hns_len
  have ha0 : a0 ∈ s.peo := hns_peo a0 (by rw [hsep]; simp)
  have ha1 : a1 ∈ s.peo := hns_peo a1 (by rw [hsep]; simp)
  have ha2 : a2 ∈ s.peo := hns_peo a2 (by rw [hsep]; simp)
  have hand : a0 ≠ a1 ∧ a0 ≠ a2 ∧ a1 ≠ a2 := by
    rw [hsep] at hns_nodup
    have := hns_nodup
    simp only [List.nodup_cons, List.mem_cons, List.not_mem_nil, or_false,
      List.nodup_nil, and_true, not_or] at this
    exact ⟨this.1.1, this.1.2, this.2.1⟩
  have hva0 : v ≠ a0 := fun h => hvrange.2 (h ▸ ha0)
  have hva1 : v ≠ a1 := fun h => hvrange.2 (h ▸ ha1)
  have hva2 : v ≠ a2 := fun h => hvrange.2 (h ▸ ha2)
  have hpeo2 : (step s).peo = s.peo ++ [v] := by rw [step_peo, hnv]
  have hcl2 : (step s).cliques = s.cliques ++ [v :: [a0, a1, a2]] := by
    rw [step_cliques, hnv, hsep]
  have hsep2 : (step s).separators = s.separators ++ [[a0, a1, a2]] := by
    rw [step_separators, hsep]
  have htri2 : (step s).triangles =
      (s.triangles.set (argmax s.max_clique_gains) [a0, a1, v]) ++
        [[a0, a2, v], [a1, a2, v]] := by
    rw [step_triangles, hnv, hsep]
    rfl
  have hvl2 : (step s).vertex_list = s.vertex_list.filter fun x => decide (x ≠ v) := by
    rw [step_vertex_list, hnv]
  have hlen2 : (step s).triangles.length = s.triangles.length + 2 := step_triangles_length s
  have hglen2 : (step s).max_clique_gains.length = 3 * N - 6 := by
    rw [step_gains_length, glen]
  have hblen2 : (step s).best_vertex.length = 3 * N - 6 := by
    rw [step_best_length, blen]
  have hcap : s.triangles.length + 2 ≤ 3 * N - 6 := by rw [trlen]; omega
  have hnt2 : argmax s.max_clique_gains < (step s).triangles.length - 2 := by
    omega
  have hug : ∀ t : ℕ, t < 3 * N - 6 → (step s).vertex_list.isEmpty = false →
      ((step s).max_clique_gains.getD t 0, (step s).best_vertex.getD t (-1)) =
        if t = argmax s.max_clique_gains ∨ t = (step s).triangles.length - 2 ∨
            t = (step s).triangles.length - 1 ∨
            s.best_vertex.getD t (-1) = s.best_vertex.getD (argmax s.max_clique_gains) (-1) then
          ((get_best_gain (step s).vertex_list ((step s).triangles.getD t []) s.W).2,
           (get_best_gain (step s).vertex_list ((step s).triangles.getD t []) s.W).1)
        else (s.max_clique_gains.getD t 0, s.best_vertex.getD t (-1)) := by
    intro t ht hne
    rw [step_gains, step_best]
    exact updateGains_getD s.W (step s).vertex_list (step s).triangles
      (argmax s.max_clique_gains) (s.best_vertex.getD (argmax s.max_clique_gains) (-1))
      s.max_clique_gains s.best_vertex t hne hnt2 (by omega) (by omega)
  have hpeo2_mem : ∀ x, x ∈ (step s).peo ↔ x ∈ s.peo ∨ x = v := by
    intro x
    rw [hpeo2]
    simp [List.mem_append]
  refine ⟨step_W s ▸ hW, step_original_W s ▸ hOW, ?_, ?_, ?_, ?_, ?_, hglen2, hblen2,
    ?_, ?_, ?_, ?_, ?_, ?_, ?_, ?_, ?_, ?_, ?_⟩
  · -- peo_nodup
    rw [hpeo2]
    simp only [List.nodup_append, List.nodup_singleton, true_and]
    exact ⟨pnd, by simpa using fun hmem => hvrange.2 hmem⟩
  · -- peo_lt
    intro x hx
    rcases (hpeo2_mem x).mp hx with h | rfl
    · exact plt x h
    · exact hvrange.1
  · -- peo_len
    rw [hpeo2, List.length_append, plen]
    rfl
  · -- vl_eq
    rw [hvl2, vleq, List.filter_filter]
    apply List.filter_congr
    intro x _
    by_cases h1 : x ∈ s.peo <;> by_cases h2 : x = v <;>
      simp [h1, h2, hpeo2, List.mem_append]
  · -- tri_len
    rw [hlen2, trlen]
    ring
  · -- tri_ok
    intro tr htr
    rw [htri2] at htr
    rcases List.mem_append.mp htr with hm | hm
    · rcases List.mem_or_eq_of_mem_set hm with hold | rfl
      · obtain ⟨hl, hnd, hmem⟩ := triok tr hold
        exact ⟨hl, hnd, fun x hx => (hpeo2_mem x).mpr (Or.inl (hmem x hx))⟩
      · refine ⟨rfl, by simp [hand.1, Ne.symm hva0, Ne.symm hva1], ?_⟩
        intro x hx
        simp only [List.mem_cons, List.not_mem_nil, or_false] at hx
        rcases hx with rfl | rfl | rfl
        · exact (hpeo2_mem x).mpr (Or.inl ha0)
        · exact (hpeo2_mem x).mpr (Or.inl ha1)
        · exact (hpeo2_mem x).mpr (Or.inr rfl)
    · simp only [List.mem_cons, List.not_mem_nil, or_false] at hm
      rcases hm with rfl | rfl
      · refine ⟨rfl, by simp [hand.2.1, Ne.symm hva0, Ne.symm hva2], ?_⟩
        intro x hx
        simp only [List.mem_cons, List.not_mem_nil, or_false] at hx
        rcases hx with rfl | rfl | rfl
        · exact (hpeo2_mem x).mpr (Or.inl ha0)
        · exact (hpeo2_mem x).mpr (Or.inl ha2)
        · exact (hpeo2_mem x).mpr (Or.inr rfl)
      · refine ⟨rfl, by simp [hand.2.2, Ne.symm hva1, Ne.symm hva2], ?_⟩
        intro x hx
        simp only [List.mem_cons, List.not_mem_nil, or_false] at hx
        rcases hx with rfl | rfl | rfl
        · exact (hpeo2_mem x).mpr (Or.inl ha1)
        · exact (hpeo2_mem x).mpr (Or.inl ha2)
        · exact (hpeo2_mem x).mpr (Or.inr rfl)
  · -- b_live
    intro hvl2ne t ht
    have hne : (step s).vertex_list.isEmpty = false := by
      cases h : (step s).vertex_list.isEmpty
      · rfl
      · exact absurd (List.isEmpty_iff.mp h) hvl2ne
    have ht6 : t < 3 * N - 6 := by omega
    have hpair := hug t ht6 hne
    by_cases hcond : t = argmax s.max_clique_gains ∨ t = (step s).triangles.length - 2 ∨
        t = (step s).triangles.length - 1 ∨
        s.best_vertex.getD t (-1) = s.best_vertex.getD (argmax s.max_clique_gains) (-1)
    · rw [if_pos hcond] at hpair
      obtain ⟨x, hx, he⟩ := get_best_gain_mem (step s).vertex_list
        ((step s).triangles.getD t []) s.W hvl2ne
      refine ⟨x, hx, ?_⟩
      have := congrArg Prod.snd hpair
      simp only at this
      rw [this, he]
    · rw [if_neg hcond] at hpair
      push_neg at hcond
      have htold : t < s.triangles.length := by omega
      obtain ⟨x, hx, he⟩ := blive hvl_ne t htold
      have hxv : x ≠ v := by
        intro hxveq
        apply hcond.2.2.2
        rw [he, hveq, hxveq]
      refine ⟨x, ?_, ?_⟩
      · rw [hvl2, List.mem_filter]
        exact ⟨hx, by simpa using hxv⟩
      · have := congrArg Prod.snd hpair
        simp only at this
        rw [this, he]
  · -- g_nonneg
    intro t
    by_cases ht6 : t < 3 * N - 6
    · by_cases hne : (step s).vertex_list.isEmpty = true
      · rw [step_gains, updateGains_empty _ _ _ _ _ _ _ hne]
        by_cases htn : t = argmax s.max_clique_gains
        · subst htn
          rw [getD_set_self _ _ _ _ (by omega)]
        · rw [getD_set_ne _ _ _ _ _ (Ne.symm htn)]
          exact gnn t
      · have hnef : (step s).vertex_list.isEmpty = false := by
          revert hne
          cases (step s).vertex_list.isEmpty <;> simp
        have hpair := hug t ht6 hnef
        by_cases hcond : t = argmax s.max_clique_gains ∨ t = (step s).triangles.length - 2 ∨
            t = (step s).triangles.length - 1 ∨
            s.best_vertex.getD t (-1) = s.best_vertex.getD (argmax s.max_clique_gains) (-1)
        · rw [if_pos hcond] at hpair
          have := congrArg Prod.fst hpair
          simp only at this
          rw [this]
          exact get_best_gain_snd_nonneg _ _ _ hW0
        · rw [if_neg hcond] at hpair
          have := congrArg Prod.fst hpair
          simp only at this
          rw [this]
          exact gnn t
    · rw [List.getD_eq_default _ _ (by omega)]
  · -- b_dead
    intro t ht
    by_cases ht6 : t < 3 * N - 6
    · by_cases hne : (step s).vertex_list.isEmpty = true
      · rw [step_best, updateGains_empty _ _ _ _ _ _ _ hne]
        exact bdead t (by omega)
      · have hnef : (step s).vertex_list.isEmpty = false := by
          revert hne
          cases (step s).vertex_list.isEmpty <;> simp
        have hpair := hug t ht6 hnef
        have hcond : ¬(t = argmax s.max_clique_gains ∨ t = (step s).triangles.length - 2 ∨
            t = (step s).triangles.length - 1 ∨
            s.best_vertex.getD t (-1) = s.best_vertex.getD (argmax s.max_clique_gains) (-1)) := by
          push_neg
          refine ⟨by omega, by omega, by omega, ?_⟩
          rw [bdead t (by omega), hveq]
          omega
        rw [if_neg hcond] at hpair
        have := congrArg Prod.snd hpair
        simp only at this
        rw [this]
        exact bdead t (by omega)
    · rw [List.getD_eq_default _ _ (by omega)]
  · -- g_dead
    intro t ht
    by_cases ht6 : t < 3 * N - 6
    · by_cases hne : (step s).vertex_list.isEmpty = true
      · rw [step_gains, updateGains_empty _ _ _ _ _ _ _ hne]
        rw [getD_set_ne _ _ _ _ _ (by omega)]
        exact gdead t (by omega)
      · have hnef : (step s).vertex_list.isEmpty = false := by
          revert hne
          cases (step s).vertex_list.isEmpty <;> simp
        have hpair := hug t ht6 hnef
        have hcond : ¬(t = argmax s.max_clique_gains ∨ t = (step s).triangles.length - 2 ∨
            t = (step s).triangles.length - 1 ∨
            s.best_vertex.getD t (-1) = s.best_vertex.getD (argmax s.max_clique_gains) (-1)) := by
          push_neg
          refine ⟨by omega, by omega, by omega, ?_⟩
          rw [bdead t (by omega), hveq]
          omega
        rw [if_neg hcond] at hpair
        have := congrArg Prod.fst hpair
        simp only at this
        rw [this]
        exact gdead t (by omega)
    · rw [List.getD_eq_default _ _ (by omega)]
  · -- cl_len
    rw [hcl2, List.length_append, cllen]
    rfl
  · -- sep_len
    rw [hsep2, List.length_append, seplen]
    rfl
  · -- cl_peo
    intro c hc x hx
    rw [hcl2] at hc
    rcases List.mem_append.mp hc with hm | hm
    · exact (hpeo2_mem x).mpr (Or.inl (clpeo c hm x hx))
    · simp only [List.mem_singleton] at hm
      subst hm
      simp only [List.mem_cons, List.not_mem_nil, or_false] at hx
      rcases hx with rfl | rfl | rfl | rfl
      · exact (hpeo2_mem x).mpr (Or.inr rfl)
      · exact (hpeo2_mem x).mpr (Or.inl ha0)
      · exact (hpeo2_mem x).mpr (Or.inl ha1)
      · exact (hpeo2_mem x).mpr (Or.inl ha2)
  · -- sep_peo
    intro sp hsp x hx
    rw [hsep2] at hsp
    rcases List.mem_append.mp hsp with hm | hm
    · exact (hpeo2_mem x).mpr (Or.inl (seppeo sp hm x hx))
    · simp only [List.mem_singleton] at hm
      subst hm
      simp only [List.mem_cons, List.not_mem_nil, or_false] at hx
      rcases hx with rfl | rfl | rfl
      · exact (hpeo2_mem x).mpr (Or.inl ha0)
      · exact (hpeo2_mem x).mpr (Or.inl ha1)
      · exact (hpeo2_mem x).mpr (Or.inl ha2)
  · -- edge_face
    intro tr htr
    have hpairs2 : cliquePairs (step s).cliques =
        cliquePairs s.cliques ∪ (v :: [a0, a1, a2]).toFinset.offDiag := by
      rw [hcl2, cliquePairs_append]
    rw [htri2] at htr
    have hsubthetra : ∀ x ∈ tr, tr ∈ ([[a0, a1, v], [a0, a2, v], [a1, a2, v]] : List (List ℕ)) →
        x ∈ (v :: [a0, a1, a2]).toFinset := by
      intro x hx htrn
      rw [List.mem_toFinset]
      simp only [List.mem_cons, List.not_mem_nil, or_false] at htrn
      rcases htrn with rfl | rfl | rfl <;>
        (simp only [List.mem_cons, List.not_mem_nil, or_false] at hx
         simp only [List.mem_cons, List.not_mem_nil, or_false]
         tauto)
    rcases List.mem_append.mp htr with hm | hm
    · rcases List.mem_or_eq_of_mem_set hm with hold | rfl
      · rw [hpairs2]
        exact (eface tr hold).trans Finset.subset_union_left
      · rw [hpairs2]
        refine Finset.Subset.trans ?_ Finset.subset_union_right
        apply offDiag_subset_of_subset
        intro x hx
        exact hsubthetra x (List.mem_toFinset.mp hx) (by simp)
    · simp only [List.mem_cons, List.not_mem_nil, or_false] at hm
      rcases hm with rfl | rfl <;>
        (rw [hpairs2]
         refine Finset.Subset.trans ?_ Finset.subset_union_right
         apply offDiag_subset_of_subset
         intro x hx
         exact hsubthetra x (List.mem_toFinset.mp hx) (by simp))
  · -- edge_card
    have hpairs2 : cliquePairs (step s).cliques =
        cliquePairs s.cliques ∪ (v :: [a0, a1, a2]).toFinset.offDiag := by
      rw [hcl2, cliquePairs_append]
    have hT : (v :: [a0, a1, a2]).toFinset = insert v ([a0, a1, a2] : List ℕ).toFinset := by
      simp
    have hFnd : ([a0, a1, a2] : List ℕ).toFinset.card = 3 := by
      rw [List.toFinset_card_of_nodup (by simp [hand.1, hand.2.1, hand.2.2])]
      rfl
    have hvF : v ∉ ([a0, a1, a2] : List ℕ).toFinset := by
      rw [List.mem_toFinset]
      simp only [List.mem_cons, List.not_mem_nil, or_false]
      tauto
    have hTcard : (v :: [a0, a1, a2]).toFinset.card = 4 := by
      rw [hT, Finset.card_insert_of_not_mem hvF, hFnd]
    have hBcard : (v :: [a0, a1, a2]).toFinset.offDiag.card = 12 := by
      rw [Finset.offDiag_card, hTcard]
    have hFcard : ([a0, a1, a2] : List ℕ).toFinset.offDiag.card = 6 := by
      rw [Finset.offDiag_card, hFnd]
    have hint : cliquePairs s.cliques ∩ (v :: [a0, a1, a2]).toFinset.offDiag =
        ([a0, a1, a2] : List ℕ).toFinset.offDiag := by
      ext p
      constructor
      · intro hp
        have hpA := Finset.mem_inter.mp hp
        obtain ⟨c, hc, hp1, hp2, hpne⟩ := mem_cliquePairs.mp hpA.1
        have hp1peo : p.1 ∈ s.peo := clpeo c hc p.1 hp1
        have hp2peo : p.2 ∈ s.peo := clpeo c hc p.2 hp2
        have hpB := Finset.mem_offDiag.mp hpA.2
        rw [Finset.mem_offDiag]
        refine ⟨?_, ?_, hpne⟩
        · have := hpB.1
          rw [hT, Finset.mem_insert] at this
          rcases this with h | h
          · exact absurd (h ▸ hp1peo) hvrange.2
          · exact h
        · have := hpB.2.1
          rw [hT, Finset.mem_insert] at this
          rcases this with h | h
          · exact absurd (h ▸ hp2peo) hvrange.2
          · exact h
      · intro hp
        rw [Finset.mem_inter]
        constructor
        · have hsepface := eface _ hns_mem
          rw [hsep] at hsepface
          exact hsepface hp
        · apply offDiag_subset_of_subset _ hp
          rw [hT]
          exact Finset.subset_insert v _
    have hci := Finset.card_union_add_card_inter (cliquePairs s.cliques)
      ((v :: [a0, a1, a2]).toFinset.offDiag)
    rw [hint, hFcard, hBcard, ecard] at hci
    rw [hpairs2]
    omega

/-! The invariant holds after each iteration of the loop. -/

theorem inv_run (W : Mat) (N : ℕ) (hN : 4 ≤ N) (hW : ∀ i j, 0 ≤ W i j) :
    ∀ u, u ≤ N - 4 → Inv W N (step^[u] (initState W N)) u
  | 0, _ => inv_init W N hN hW
  | u + 1, h => by
      rw [Function.iterate_succ_apply']
      exact inv_step W N _ u hN hW (by omega) (inv_run W N hN hW u (by omega))

theorem inv_final (W : Mat) (N : ℕ) (hN : 4 ≤ N) (hW : ∀ i j, 0 ≤ W i j) :
    Inv W N (compute_TMFG_state W N) (N - 4) :=
  inv_run W N hN hW (N - 4) (le_refl _)

/-! Bookkeeping facts that hold for arbitrary weights: each iteration
appends exactly one vertex to the PEO, one clique and one separator, and
the appended clique is the inserted vertex prepended to the appended
separator. -/

theorem getD_append_self {α : Type} (l : List α) (x d : α) :
    (l ++ [x]).getD l.length d = x := by
  rw [List.getD_append_right _ _ _ _ (le_refl _)]
  simp

theorem getD_append_len {α : Type} (l : List α) (x d : α) (n : ℕ) (h : l.length = n) :
    (l ++ [x]).getD n d = x := by
  subst h
  exact getD_append_self l x d

theorem run_link (W : Mat) (N : ℕ) (hN : 4 ≤ N) : ∀ u : ℕ,
    (step^[u] (initState W N)).peo.length = 4 + u ∧
    (step^[u] (initState W N)).cliques.length = 1 + u ∧
    (step^[u] (initState W N)).separators.length = u ∧
    ∀ k, k < u → (step^[u] (initState W N)).cliques.getD (k + 1) [] =
      (step^[u] (initState W N)).peo.getD (4 + k) 0 ::
        (step^[u] (initState W N)).separators.getD k []
  | 0 => by
      obtain ⟨a, b, c, d, hc0, _, _, _, _⟩ := max_clique_shape W hN
      refine ⟨?_, rfl, rfl, fun k hk => absurd hk (Nat.not_lt_zero k)⟩
      show (max_clique W N).length = 4 + 0
      rw [hc0]
      rfl
  | u + 1 => by
      obtain ⟨ihp, ihc, ihs, ihl⟩ := run_link W N hN u
      rw [Function.iterate_succ_apply']
      refine ⟨?_, ?_, ?_, ?_⟩
      · rw [step_peo, List.length_append, ihp]
        rfl
      · rw [step_cliques, List.length_append, ihc]
        rfl
      · rw [step_separators, List.length_append, ihs]
        rfl
      · intro k hk
        rcases Nat.lt_succ_iff_lt_or_eq.mp hk with hk' | rfl
        · rw [step_cliques, step_peo, step_separators,
              List.getD_append _ _ _ _ (by omega),
              List.getD_append _ _ _ _ (by omega),
              List.getD_append _ _ _ _ (by omega)]
          exact ihl k hk'
        · rw [step_cliques, step_peo, step_separators]
          have h1 : (step^[k] (initState W N)).cliques.length = k + 1 := by omega
          have h2 : (step^[k] (initState W N)).peo.length = 4 + k := by omega
          have h3 : (step^[k] (initState W N)).separators.length = k := by omega
          rw [getD_append_len _ _ _ _ h1, getD_append_len _ _ _ _ h2,
              getD_append_len _ _ _ _ h3]

/-! Pointwise description of the two sparse projectors. -/

theorem foldl_blockSet_apply (V : Mat) : ∀ (cs : List (List ℕ)) (J0 : Mat) (a b : ℕ),
    (cs.foldl (fun J c => blockSet J c V) J0) a b =
      if ∃ c ∈ cs, a ∈ c ∧ b ∈ c then V a b else J0 a b
  | [], J0, a, b => by simp
  | c :: cs, J0, a, b => by
      rw [List.foldl_cons, foldl_blockSet_apply V cs]
      by_cases h : ∃ c2 ∈ cs, a ∈ c2 ∧ b ∈ c2
      · rw [if_pos h, if_pos ?_]
        obtain ⟨c2, hc2, hab⟩ := h
        exact ⟨c2, List.mem_cons_of_mem _ hc2, hab⟩
      · rw [if_neg h]
        unfold blockSet
        by_cases h2 : a ∈ c ∧ b ∈ c
        · rw [if_pos h2, if_pos ⟨c, List.mem_cons_self c cs, h2⟩]
        · rw [if_neg h2, if_neg ?_]
          rintro ⟨c2, hc2, hab⟩
          rcases List.mem_cons.mp hc2 with rfl | hm
          · exact h2 hab
          · exact h ⟨c2, hm, hab⟩

theorem unweighted_J_apply (cliques : List (List ℕ)) (a b : ℕ) :
    unweighted_J cliques a b =
      if a = b then 0 else if ∃ c ∈ cliques, a ∈ c ∧ b ∈ c then 1 else 0 := by
  unfold unweighted_J
  by_cases h : a = b
  · rw [if_pos h, if_pos h]
  · rw [if_neg h, if_neg h, foldl_blockSet_apply]
    rfl

theorem weighted_J_apply (original_W : Mat) (cliques : List (List ℕ)) (a b : ℕ) :
    weighted_J original_W cliques a b =
      if a = b then 0
      else if ∃ c ∈ cliques, a ∈ c ∧ b ∈ c then original_W a b else 0 := by
  unfold weighted_J
  by_cases h : a = b
  · rw [if_pos h, if_pos h]
  · rw [if_neg h, if_neg h, foldl_blockSet_apply]
    rfl

/-- The nonzero off-diagonal positions of a clique-block matrix are
exactly the retained edge pairs, provided the written values are nonzero
there. -/
theorem offDiagNonzeroCount_eq (N : ℕ) (cs : List (List ℕ)) (V : Mat)
    (hsub : ∀ c ∈ cs, ∀ x ∈ c, x < N)
    (hV : ∀ a b : ℕ, a < N → b < N → a ≠ b → (∃ c ∈ cs, a ∈ c ∧ b ∈ c) → V a b ≠ 0) :
    offDiagNonzeroCount
      (fun a b => if a = b then 0 else if ∃ c ∈ cs, a ∈ c ∧ b ∈ c then V a b else 0) N =
      (cliquePairs cs).card := by
  unfold offDiagNonzeroCount
  congr 1
  ext p
  rw [Finset.mem_filter, Finset.mem_product, Finset.mem_range, Finset.mem_range,
      mem_cliquePairs]
  constructor
  · rintro ⟨⟨h1, h2⟩, hne, hnz⟩
    dsimp only at hnz
    rw [if_neg hne] at hnz
    by_cases hex : ∃ c ∈ cs, p.1 ∈ c ∧ p.2 ∈ c
    · obtain ⟨c, hc, hab⟩ := hex
      exact ⟨c, hc, hab.1, hab.2, hne⟩
    · rw [if_neg hex] at hnz
      exact absurd rfl hnz
  · rintro ⟨c, hc, h1, h2, hne⟩
    have ha : p.1 < N := hsub c hc p.1 h1
    have hb : p.2 < N := hsub c hc p.2 h2
    refine ⟨⟨ha, hb⟩, hne, ?_⟩
    dsimp only
    rw [if_neg hne, if_pos ⟨c, hc, h1, h2⟩]
    exact hV p.1 p.2 ha hb hne ⟨c, hc, h1, h2⟩

/-! Symmetry of the three projectors. -/

theorem unweighted_J_diag (cliques : List (List ℕ)) (a : ℕ) :
    unweighted_J cliques a a = 0 := by
  rw [unweighted_J_apply, if_pos rfl]

theorem weighted_J_diag (original_W : Mat) (cliques : List (List ℕ)) (a : ℕ) :
    weighted_J original_W cliques a a = 0 := by
  rw [weighted_J_apply, if_pos rfl]

theorem unweighted_J_symm (cliques : List (List ℕ)) (a b : ℕ) :
    unweighted_J cliques a b = unweighted_J cliques b a := by
  rw [unweighted_J_apply, unweighted_J_apply]
  by_cases h : a = b
  · rw [if_pos h, if_pos h.symm]
  · rw [if_neg h, if_neg (Ne.symm h)]
    by_cases hex : ∃ c ∈ cliques, a ∈ c ∧ b ∈ c
    · obtain ⟨c, hc, h1, h2⟩ := hex
      rw [if_pos ⟨c, hc, h1, h2⟩, if_pos ⟨c, hc, h2, h1⟩]
    · rw [if_neg hex, if_neg ?_]
      rintro ⟨c, hc, h1, h2⟩
      exact hex ⟨c, hc, h2, h1⟩

theorem weighted_J_symm (original_W : Mat) (hW : ∀ i j, original_W i j = original_W j i)
    (cliques : List (List ℕ)) (a b : ℕ) :
    weighted_J original_W cliques a b = weighted_J original_W cliques b a := by
  rw [weighted_J_apply, weighted_J_apply]
  by_cases h : a = b
  · rw [if_pos h, if_pos h.symm]
  · rw [if_neg h, if_neg (Ne.symm h)]
    by_cases hex : ∃ c ∈ cliques, a ∈ c ∧ b ∈ c
    · obtain ⟨c, hc, h1, h2⟩ := hex
      rw [if_pos ⟨c, hc, h1, h2⟩, if_pos ⟨c, hc, h2, h1⟩]
      exact hW a b
    · rw [if_neg hex, if_neg ?_]
      rintro ⟨c, hc, h1, h2⟩
      exact hex ⟨c, hc, h2, h1⟩

theorem subMatrix_transpose (C : Mat) (hC : ∀ i j, C i j = C j i) (c : List ℕ) :
    (subMatrix C c).transpose = subMatrix C c := by
  ext i j
  rw [Matrix.transpose_apply]
  exact hC _ _

theorem minv_apply_symm {n : ℕ} (A : Matrix (Fin n) (Fin n) ℚ) (h : A.transpose = A)
    (i j : Fin n) : minv A i j = minv A j i := by
  have ht : (minv A).transpose = minv A := by
    unfold minv
    rw [Matrix.transpose_smul, Matrix.adjugate_transpose, h]
  conv_rhs => rw [← ht]
  rw [Matrix.transpose_apply]

theorem scatter_apply_symm (sgn : ℚ) (C : Mat) (hC : ∀ i j, C i j = C j i) (J : Mat)
    (hJ : ∀ a b, J a b = J b a) (c : List ℕ) (a b : ℕ) :
    scatter sgn C J c a b = scatter sgn C J c b a := by
  unfold scatter
  by_cases ha : a ∈ c <;> by_cases hb : b ∈ c
  · rw [dif_pos ⟨ha, hb⟩, dif_pos ⟨hb, ha⟩, hJ a b]
    congr 1
    congr 1
    exact minv_apply_symm _ (subMatrix_transpose C hC c) _ _
  · rw [dif_neg (fun h => hb h.2), dif_neg (fun h => hb h.1)]
    exact hJ a b
  · rw [dif_neg (fun h => ha h.1), dif_neg (fun h => ha h.2)]
    exact hJ a b
  · rw [dif_neg (fun h => ha h.1), dif_neg (fun h => ha h.2)]
    exact hJ a b

theorem foldl_scatter_symm (sgn : ℚ) (C : Mat) (hC : ∀ i j, C i j = C j i) :
    ∀ (cs : List (List ℕ)) (J : Mat), (∀ a b, J a b = J b a) →
      ∀ a b, (cs.foldl (scatter sgn C) J) a b = (cs.foldl (scatter sgn C) J) b a
  | [], _, hJ, a, b => hJ a b
  | c :: cs, J, hJ, a, b => by
      rw [List.foldl_cons]
      exact foldl_scatter_symm sgn C hC cs (scatter sgn C J c)
        (fun x y => scatter_apply_symm sgn C hC J hJ c x y) a b

theorem logo_J_symm (cov : Mat) (hC : ∀ i j, cov i j = cov j i)
    (cliques separators : List (List ℕ)) (a b : ℕ) :
    logo_J cov cliques separators a b = logo_J cov cliques separators b a := by
  unfold logo_J
  apply foldl_scatter_symm (-1) cov hC separators
  apply foldl_scatter_symm 1 cov hC cliques
  intro x y
  rfl

/-! The accumulator `P` never feeds back into the computation. -/

theorem sansP_step (s t : TMFGState) (h : sansP s = sansP t) :
    sansP (step s) = sansP (stepNoP t) := by
  unfold sansP at h ⊢
  simp only [Prod.mk.injEq] at h ⊢
  obtain ⟨h1, h2, h3, h4, h5, h6, h7, h8, h9, h10⟩ := h
  refine ⟨?_, ?_, ?_, ?_, ?_, ?_, ?_, ?_, ?_, ?_⟩ <;>
    simp only [step, stepNoP, h1, h2, h3, h4, h5, h6, h7, h8, h9, h10]

theorem sansP_iterate (W : Mat) (N : ℕ) :
    ∀ u : ℕ, sansP (step^[u] (initState W N)) = sansP (stepNoP^[u] (initStateNoP W N))
  | 0 => rfl
  | u + 1 => by
      rw [Function.iterate_succ_apply', Function.iterate_succ_apply']
      exact sansP_step _ _ (sansP_iterate W N u)

/-! The working copy of the weight matrix and the original are carried
unchanged through the loop. -/

theorem run_original_W (W : Mat) (N : ℕ) :
    ∀ u : ℕ, (step^[u] (initState W N)).original_W = W
  | 0 => rfl
  | u + 1 => by
      rw [Function.iterate_succ_apply', step_original_W]
      exact run_original_W W N u

/-! Unfolding the mode dispatch of `__compute_TMFG`. -/

theorem compute_TMFG_logo (W : Mat) (N : ℕ) (cov : Mat) :
    compute_TMFG W N cov "logo" =
      ((compute_TMFG_state W N).cliques, (compute_TMFG_state W N).separators,
        logo_J cov (compute_TMFG_state W N).cliques (compute_TMFG_state W N).separators) := rfl

theorem compute_TMFG_unweighted (W : Mat) (N : ℕ) (cov : Mat) :
    compute_TMFG W N cov "unweighted_sparse_W_matrix" =
      ((compute_TMFG_state W N).cliques, (compute_TMFG_state W N).separators,
        unweighted_J (compute_TMFG_state W N).cliques) := rfl

theorem compute_TMFG_default (W : Mat) (N : ℕ) (cov : Mat) (out : String)
    (h1 : out ≠ "logo") (h2 : out ≠ "unweighted_sparse_W_matrix") :
    compute_TMFG W N cov out =
      ((compute_TMFG_state W N).cliques, (compute_TMFG_state W N).separators,
        weighted_J (compute_TMFG_state W N).original_W (compute_TMFG_state W N).cliques) := by
  unfold compute_TMFG
  dsimp only
  rw [if_neg h1, if_neg h2]

theorem compute_TMFG_state_original_W (W : Mat) (N : ℕ) :
    (compute_TMFG_state W N).original_W = W :=
  run_original_W W N (N - 4)

/-! Lengths of the cached-gain arrays, with no assumption on the
weights. -/

theorem initState_gains_length (W : Mat) (N : ℕ) :
    (initState W N).max_clique_gains.length = 3 * N - 6 := by
  have h := refresh_foldl_length (zeroDiag W)
    ((List.range N).filter fun v => decide (v ∉ max_clique W N))
    [[(max_clique W N).getD 0 0, (max_clique W N).getD 1 0, (max_clique W N).getD 2 0],
     [(max_clique W N).getD 0 0, (max_clique W N).getD 1 0, (max_clique W N).getD 3 0],
     [(max_clique W N).getD 0 0, (max_clique W N).getD 2 0, (max_clique W N).getD 3 0],
     [(max_clique W N).getD 1 0, (max_clique W N).getD 2 0, (max_clique W N).getD 3 0]]
    [0, 1, 2, 3]
    (List.replicate (3 * N - 6) 0, List.replicate (3 * N - 6) (-1))
  exact h.1.trans (List.length_replicate _ _)

theorem initState_best_length (W : Mat) (N : ℕ) :
    (initState W N).best_vertex.length = 3 * N - 6 := by
  have h := refresh_foldl_length (zeroDiag W)
    ((List.range N).filter fun v => decide (v ∉ max_clique W N))
    [[(max_clique W N).getD 0 0, (max_clique W N).getD 1 0, (max_clique W N).getD 2 0],
     [(max_clique W N).getD 0 0, (max_clique W N).getD 1 0, (max_clique W N).getD 3 0],
     [(max_clique W N).getD 0 0, (max_clique W N).getD 2 0, (max_clique W N).getD 3 0],
     [(max_clique W N).getD 1 0, (max_clique W N).getD 2 0, (max_clique W N).getD 3 0]]
    [0, 1, 2, 3]
    (List.replicate (3 * N - 6) 0, List.replicate (3 * N - 6) (-1))
  exact h.2.trans (List.length_replicate _ _)

theorem run_lengths (W : Mat) (N : ℕ) : ∀ u : ℕ,
    (step^[u] (initState W N)).triangles.length = 4 + 2 * u ∧
    (step^[u] (initState W N)).max_clique_gains.length = 3 * N - 6 ∧
    (step^[u] (initState W N)).best_vertex.length = 3 * N - 6
  | 0 => ⟨rfl, initState_gains_length W N, initState_best_length W N⟩
  | u + 1 => by
      obtain ⟨h1, h2, h3⟩ := run_lengths W N u
      rw [Function.iterate_succ_apply']
      refine ⟨?_, ?_, ?_⟩
      · rw [step_triangles_length, h1]
        ring
      · rw [step_gains_length, h2]
      · rw [step_best_length, h3]

/-! Facts about the concrete matrices used for evaluation. -/

theorem matOfLists_nonneg (L : List (List ℚ)) (h : ∀ r ∈ L, ∀ x ∈ r, 0 ≤ x) :
    ∀ i j, 0 ≤ matOfLists L i j := by
  intro i j
  unfold matOfLists
  by_cases hi : i < L.length
  · have hr : L.getD i [] ∈ L := getD_mem L i [] hi
    by_cases hj : j < (L.getD i []).length
    · exact h _ hr _ (getD_mem _ j 0 hj)
    · rw [List.getD_eq_default _ _ (by omega)]
  · rw [List.getD_eq_default L _ (by omega)]
    rfl

theorem matOfLists_symm (L : List (List ℚ)) (n : ℕ) (hlen : L.length = n)
    (hrow : ∀ r ∈ L, r.length = n)
    (hsym : ∀ i < n, ∀ j < n, (L.getD i []).getD j 0 = (L.getD j []).getD i 0) :
    ∀ i j, matOfLists L i j = matOfLists L j i := by
  intro i j
  unfold matOfLists
  by_cases hi : i < n <;> by_cases hj : j < n
  · exact hsym i hi j hj
  · have hri : L.getD i [] ∈ L := getD_mem L i [] (by omega)
    rw [List.getD_eq_default (L.getD i []) _ (by rw [hrow _ hri]; omega),
        List.getD_eq_default L _ (by omega)]
    rfl
  · have hrj : L.getD j [] ∈ L := getD_mem L j [] (by omega)
    rw [List.getD_eq_default L _ (by omega),
        List.getD_eq_default (L.getD j []) _ (by rw [hrow _ hrj]; omega)]
    rfl
  · rw [List.getD_eq_default L _ (by omega), List.getD_eq_default L _ (by omega)]
    rfl

theorem w5c_nonneg : ∀ i j, 0 ≤ w5c i j :=
  matOfLists_nonneg w5L (by with_unfolding_all decide)

theorem w5c_symm : ∀ i j, w5c i j = w5c j i :=
  matOfLists_symm w5L 5 rfl (by decide) (by with_unfolding_all decide)

theorem idMat_symm : ∀ i j, idMat i j = idMat j i := by
  intro i j
  unfold idMat
  by_cases h : i = j
  · rw [if_pos h, if_pos h.symm]
  · rw [if_neg h, if_neg (Ne.symm h)]

theorem zeroMat_nonneg : ∀ i j, (0 : ℚ) ≤ zeroMat i j := fun _ _ => le_refl 0

theorem zeroMat_symm : ∀ i j, zeroMat i j = zeroMat j i := fun _ _ => rfl

end TMFGSpec

namespace TMFGSpec

/-- Outside inverse-covariance mode nothing can fail: `fit` returns the
model unconditionally (the index check belongs to `__logo` alone). -/
theorem fit_ok_of_ne_logo (W : Mat) (N : ℕ) (cov : Mat) (covN : ℕ) (out : String)
    (h : out ≠ "logo") :
    fit W N cov covN out = Except.ok (fitModel W N cov covN out) := by
  unfold fit
  dsimp only
  rw [if_neg h]

/-- Any selector other than the two recognized non-default strings takes
the `else` branch of the dispatch, i.e. behaves as weighted sparse
mode. -/
theorem fit_default_eq (W : Mat) (N : ℕ) (cov : Mat) (covN : ℕ) (out : String)
    (h1 : out ≠ "logo") (h2 : out ≠ "unweighted_sparse_W_matrix") :
    fit W N cov covN out = fit W N cov covN "weighted_sparse_W_matrix" := by
  rw [fit_ok_of_ne_logo W N cov covN out h1,
      fit_ok_of_ne_logo W N cov covN "weighted_sparse_W_matrix" (by decide)]
  congr 1
  unfold fitModel
  rw [compute_TMFG_default W N cov out h1 h2,
      compute_TMFG_default W N cov "weighted_sparse_W_matrix" (by decide) (by decide)]

/-! Claim theorems. -/

/-- C1 (counterexample): on the unrecognized output selector `"bogus"`,
`fit` does not fail with `InvalidModeError`; it succeeds and returns the
result of the weighted sparse projector (and the full clique list). -/
theorem invalid_mode_counterexample :
    fit w5c 5 idMat 5 "bogus" =
      Except.ok (fitModel w5c 5 idMat 5 "weighted_sparse_W_matrix") ∧
    (fitModel w5c 5 idMat 5 "bogus").cliques.length = 2 := by
  constructor
  · rw [fit_default_eq w5c 5 idMat 5 "bogus" (by decide) (by decide)]
    exact fit_ok_of_ne_logo w5c 5 idMat 5 "weighted_sparse_W_matrix" (by decide)
  · with_unfolding_all decide

/-- C1 (amended): for every output selector other than the code's
recognized strings `"logo"` and `"unweighted_sparse_W_matrix"`, `fit`
raises nothing and silently behaves exactly as in weighted sparse mode:
the `else` branch of the dispatch runs the weighted projector. -/
theorem invalid_mode_silent_fallback (W : Mat) (N : ℕ) (cov : Mat) (covN : ℕ)
    (out : String) (h1 : out ≠ "logo") (h2 : out ≠ "unweighted_sparse_W_matrix") :
    fit W N cov covN out = fit W N cov covN "weighted_sparse_W_matrix" :=
  fit_default_eq W N cov covN out h1 h2

/-- Witness for C1 (amended) at the concrete selector `"bogus"`. -/
theorem invalid_mode_silent_fallback_witness :
    ("bogus" ≠ "logo") ∧ ("bogus" ≠ "unweighted_sparse_W_matrix") ∧
    fit w5c 5 idMat 5 "bogus" = fit w5c 5 idMat 5 "weighted_sparse_W_matrix" :=
  ⟨by decide, by decide,
    invalid_mode_silent_fallback w5c 5 idMat 5 "bogus" (by decide) (by decide)⟩

/-- C2 (counterexample): in inverse-covariance mode the diagonal of `J`
is not zeroed; on the valid input `N = 4`, `W = 0`, `cov = I`, the
returned `J` has `J[0,0] = 1 ≠ 0`. -/
theorem logo_diagonal_counterexample :
    (fitModel zeroMat 4 idMat 4 "logo").J 0 0 ≠ 0 := by
  have hcl : (compute_TMFG_state zeroMat 4).cliques = [[0, 1, 2, 3]] := by
    with_unfolding_all decide
  have hsp : (compute_TMFG_state zeroMat 4).separators = [] := by
    with_unfolding_all decide
  show (compute_TMFG zeroMat 4 idMat "logo").2.2 0 0 ≠ 0
  rw [compute_TMFG_logo]
  show logo_J idMat (compute_TMFG_state zeroMat 4).cliques
    (compute_TMFG_state zeroMat 4).separators 0 0 ≠ 0
  rw [hcl, hsp]
  unfold logo_J
  simp only [List.foldl_cons, List.foldl_nil]
  unfold scatter
  rw [dif_pos ⟨by decide, by decide⟩]
  have hsubm : subMatrix idMat [0, 1, 2, 3] = 1 := by
    ext i j
    fin_cases i <;> fin_cases j <;>
      simp [subMatrix, idMat, Matrix.one_apply, Matrix.of_apply, List.get] <;> decide
  rw [hsubm]
  have hminv : minv (1 : Matrix (Fin 4) (Fin 4) ℚ) = 1 := by
    unfold minv
    rw [Matrix.det_one, Matrix.adjugate_one, inv_one, one_smul]
  rw [hminv, Matrix.one_apply_eq]
  norm_num [zeroMat]

/-- C2 (amended): `J` is symmetric in all three modes (given symmetric
inputs, as the data model requires), and the diagonal is zero in the
unweighted and the weighted sparse modes; the inverse-covariance mode
does not zero the diagonal. -/
theorem output_symmetry_and_diagonal (W : Mat) (N : ℕ) (cov : Mat) (covN : ℕ)
    (hWs : ∀ i j, W i j = W j i) (hCs : ∀ i j, cov i j = cov j i) :
    (∀ i j, (fitModel W N cov covN "unweighted_sparse_W_matrix").J i j =
      (fitModel W N cov covN "unweighted_sparse_W_matrix").J j i) ∧
    (∀ i, (fitModel W N cov covN "unweighted_sparse_W_matrix").J i i = 0) ∧
    (∀ i j, (fitModel W N cov covN "weighted_sparse_W_matrix").J i j =
      (fitModel W N cov covN "weighted_sparse_W_matrix").J j i) ∧
    (∀ i, (fitModel W N cov covN "weighted_sparse_W_matrix").J i i = 0) ∧
    (∀ i j, (fitModel W N cov covN "logo").J i j = (fitModel W N cov covN "logo").J j i) := by
  have hJu : (fitModel W N cov covN "unweighted_sparse_W_matrix").J =
      unweighted_J (compute_TMFG_state W N).cliques := by
    show (compute_TMFG W N cov "unweighted_sparse_W_matrix").2.2 = _
    rw [compute_TMFG_unweighted]
  have hJw : (fitModel W N cov covN "weighted_sparse_W_matrix").J =
      weighted_J W (compute_TMFG_state W N).cliques := by
    show (compute_TMFG W N cov "weighted_sparse_W_matrix").2.2 = _
    rw [compute_TMFG_default W N cov _ (by decide) (by decide),
        compute_TMFG_state_original_W]
  have hJl : (fitModel W N cov covN "logo").J =
      logo_J cov (compute_TMFG_state W N).cliques (compute_TMFG_state W N).separators := by
    show (compute_TMFG W N cov "logo").2.2 = _
    rw [compute_TMFG_logo]
  refine ⟨?_, ?_, ?_, ?_, ?_⟩
  · intro i j
    rw [hJu]
    exact unweighted_J_symm _ i j
  · intro i
    rw [hJu]
    exact unweighted_J_diag _ i
  · intro i j
    rw [hJw]
    exact weighted_J_symm W hWs _ i j
  · intro i
    rw [hJw]
    exact weighted_J_diag _ _ i
  · intro i j
    rw [hJl]
    exact logo_J_symm cov hCs _ _ i j

/-- Witness for C2 (amended) at the concrete symmetric input. -/
theorem output_symmetry_and_diagonal_witness :
    (∀ i j, w5c i j = w5c j i) ∧ (∀ i j, idMat i j = idMat j i) ∧
    ((∀ i j, (fitModel w5c 5 idMat 5 "unweighted_sparse_W_matrix").J i j =
      (fitModel w5c 5 idMat 5 "unweighted_sparse_W_matrix").J j i) ∧
    (∀ i, (fitModel w5c 5 idMat 5 "unweighted_sparse_W_matrix").J i i = 0) ∧
    (∀ i j, (fitModel w5c 5 idMat 5 "weighted_sparse_W_matrix").J i j =
      (fitModel w5c 5 idMat 5 "weighted_sparse_W_matrix").J j i) ∧
    (∀ i, (fitModel w5c 5 idMat 5 "weighted_sparse_W_matrix").J i i = 0) ∧
    (∀ i j, (fitModel w5c 5 idMat 5 "logo").J i j = (fitModel w5c 5 idMat 5 "logo").J j i)) :=
  ⟨w5c_symm, idMat_symm, output_symmetry_and_diagonal w5c 5 idMat 5 w5c_symm idMat_symm⟩

/-- C4: for every valid input (`N ≥ 4`, nonnegative weights, as the
weights are squared correlations), the clique list has `N - 3` entries,
the separator list has `N - 4` entries, and the perfect elimination
order contains every vertex of `[0, N)` exactly once. -/
theorem counts_and_peo (W : Mat) (N : ℕ) (hN : 4 ≤ N) (hW : ∀ i j, 0 ≤ W i j) :
    (compute_TMFG_state W N).cliques.length = N - 3 ∧
    (compute_TMFG_state W N).separators.length = N - 4 ∧
    (compute_TMFG_state W N).peo.Nodup ∧
    ∀ v : ℕ, v ∈ (compute_TMFG_state W N).peo ↔ v < N := by
  have hfin := inv_final W N hN hW
  refine ⟨by rw [hfin.cl_len]; omega, by rw [hfin.sep_len], hfin.peo_nodup, ?_⟩
  have hlen : (compute_TMFG_state W N).peo.length = N := by
    rw [hfin.peo_len]
    omega
  have hsub : (compute_TMFG_state W N).peo.toFinset ⊆ Finset.range N := fun x hx =>
    Finset.mem_range.mpr (hfin.peo_lt x (List.mem_toFinset.mp hx))
  have hcard : (compute_TMFG_state W N).peo.toFinset.card = N := by
    rw [List.toFinset_card_of_nodup hfin.peo_nodup, hlen]
  have hset : (compute_TMFG_state W N).peo.toFinset = Finset.range N :=
    Finset.eq_of_subset_of_card_le hsub (by rw [hcard, Finset.card_range])
  intro v
  rw [← List.mem_toFinset, hset, Finset.mem_range]

/-- Witness for C4 at the concrete input. -/
theorem counts_and_peo_witness :
    (4 ≤ 5) ∧ (∀ i j, 0 ≤ w5c i j) ∧
    ((compute_TMFG_state w5c 5).cliques.length = 5 - 3 ∧
     (compute_TMFG_state w5c 5).separators.length = 5 - 4 ∧
     (compute_TMFG_state w5c 5).peo.Nodup ∧
     ∀ v : ℕ, v ∈ (compute_TMFG_state w5c 5).peo ↔ v < 5) :=
  ⟨by decide, w5c_nonneg, counts_and_peo w5c 5 (by decide) w5c_nonneg⟩

/-- C5 (counterexample): in weighted mode the nonzero count of `J` is
not always `2 * (3N - 6)`: with the all-zero (valid, symmetric) weight
matrix at `N = 4`, every copied value is zero and `J` has no nonzero
entries at all. -/
theorem weighted_zero_edge_counterexample :
    offDiagNonzeroCount (fitModel zeroMat 4 idMat 4 "weighted_sparse_W_matrix").J 4 ≠
      2 * (3 * 4 - 6) := by
  with_unfolding_all decide

/-- C5 (amended): the unweighted sparse output always has exactly
`2 * (3N - 6)` nonzero off-diagonal entries; the weighted sparse output
has the same count provided every off-diagonal weight inside `[0, N)` is
nonzero (a zero weight on a retained edge produces a zero entry). -/
theorem retained_edge_count (W : Mat) (N : ℕ) (cov : Mat) (covN : ℕ)
    (hN : 4 ≤ N) (hW : ∀ i j, 0 ≤ W i j) :
    offDiagNonzeroCount (fitModel W N cov covN "unweighted_sparse_W_matrix").J N =
      2 * (3 * N - 6) ∧
    ((∀ i j : ℕ, i < N → j < N → i ≠ j → W i j ≠ 0) →
      offDiagNonzeroCount (fitModel W N cov covN "weighted_sparse_W_matrix").J N =
        2 * (3 * N - 6)) := by
  have hfin := inv_final W N hN hW
  have hsub : ∀ c ∈ (compute_TMFG_state W N).cliques, ∀ x ∈ c, x < N :=
    fun c hc x hx => hfin.peo_lt x (hfin.cl_peo c hc x hx)
  have hcard : (cliquePairs (compute_TMFG_state W N).cliques).card = 2 * (3 * N - 6) := by
    rw [hfin.edge_card]
    omega
  constructor
  · have hJu : (fitModel W N cov covN "unweighted_sparse_W_matrix").J =
        unweighted_J (compute_TMFG_state W N).cliques := by
      show (compute_TMFG W N cov "unweighted_sparse_W_matrix").2.2 = _
      rw [compute_TMFG_unweighted]
    have hfn : unweighted_J (compute_TMFG_state W N).cliques =
        (fun a b => if a = b then 0
          else if ∃ c ∈ (compute_TMFG_state W N).cliques, a ∈ c ∧ b ∈ c then
            (fun _ _ => (1 : ℚ)) a b else 0) := by
      funext a b
      rw [unweighted_J_apply]
    rw [hJu, hfn,
        offDiagNonzeroCount_eq N _ _ hsub (fun a b _ _ _ _ => one_ne_zero), hcard]
  · intro hz
    have hJw : (fitModel W N cov covN "weighted_sparse_W_matrix").J =
        weighted_J W (compute_TMFG_state W N).cliques := by
      show (compute_TMFG W N cov "weighted_sparse_W_matrix").2.2 = _
      rw [compute_TMFG_default W N cov _ (by decide) (by decide),
          compute_TMFG_state_original_W]
    have hfn : weighted_J W (compute_TMFG_state W N).cliques =
        (fun a b => if a = b then 0
          else if ∃ c ∈ (compute_TMFG_state W N).cliques, a ∈ c ∧ b ∈ c then
            W a b else 0) := by
      funext a b
      rw [weighted_J_apply]
    rw [hJw, hfn,
        offDiagNonzeroCount_eq N _ _ hsub (fun a b ha hb hne _ => hz a b ha hb hne), hcard]

/-- Witness for C5 (amended) at the concrete input with all off-diagonal
weights nonzero. -/
theorem retained_edge_count_witness :
    (4 ≤ 5) ∧ (∀ i j, 0 ≤ w5c i j) ∧
    (∀ i j : ℕ, i < 5 → j < 5 → i ≠ j → w5c i j ≠ 0) ∧
    (offDiagNonzeroCount (fitModel w5c 5 idMat 5 "unweighted_sparse_W_matrix").J 5 =
      2 * (3 * 5 - 6) ∧
     offDiagNonzeroCount (fitModel w5c 5 idMat 5 "weighted_sparse_W_matrix").J 5 =
      2 * (3 * 5 - 6)) := by
  have hz0 : ∀ i < 5, ∀ j < 5, i ≠ j → w5c i j ≠ 0 := by
    with_unfolding_all decide
  have hz : ∀ i j : ℕ, i < 5 → j < 5 → i ≠ j → w5c i j ≠ 0 :=
    fun i j hi hj => hz0 i hi j hj
  have h := retained_edge_count w5c 5 idMat 5 (by decide) w5c_nonneg
  exact ⟨by decide, w5c_nonneg, hz, h.1, h.2 hz⟩

/-- C6: in weighted mode every nonzero entry of the returned `J` equals
the corresponding entry of the weight matrix as supplied by the caller
(the working copy is diagonal-zeroed, the original is not). -/
theorem weighted_values_from_original (W : Mat) (N : ℕ) (cov : Mat) (covN : ℕ) (i j : ℕ)
    (h : (fitModel W N cov covN "weighted_sparse_W_matrix").J i j ≠ 0) :
    (fitModel W N cov covN "weighted_sparse_W_matrix").J i j = W i j := by
  have hJ : (fitModel W N cov covN "weighted_sparse_W_matrix").J =
      weighted_J W (compute_TMFG_state W N).cliques := by
    show (compute_TMFG W N cov "weighted_sparse_W_matrix").2.2 = _
    rw [compute_TMFG_default W N cov _ (by decide) (by decide),
        compute_TMFG_state_original_W]
  rw [hJ] at h ⊢
  rw [weighted_J_apply] at h ⊢
  by_cases hij : i = j
  · rw [if_pos hij] at h
    exact absurd rfl h
  · rw [if_neg hij] at h ⊢
    by_cases hex : ∃ c ∈ (compute_TMFG_state W N).cliques, i ∈ c ∧ j ∈ c
    · rw [if_pos hex]
    · rw [if_neg hex] at h
      exact absurd rfl h

/-- Witness for C6 at a retained edge of the concrete input. -/
theorem weighted_values_from_original_witness :
    (fitModel w5c 5 idMat 5 "weighted_sparse_W_matrix").J 0 1 ≠ 0 ∧
    (fitModel w5c 5 idMat 5 "weighted_sparse_W_matrix").J 0 1 = w5c 0 1 :=
  ⟨by with_unfolding_all decide,
   weighted_values_from_original w5c 5 idMat 5 0 1 (by with_unfolding_all decide)⟩

/-- C7: each iteration appends exactly the clique `{nv} ∪ face(nt)`, the
separator `face(nt)` (whose captured value the frontier mutation does
not change), rewrites slot `nt` to `{sep0, sep1, nv}` and appends the
faces `{sep0, sep2, nv}` and `{sep1, sep2, nv}`; consequently in the
final state `cliques[k+1] = [inserted vertex] ++ separators[k]` for
every `k < N - 4`. -/
theorem insertion_step_structure (W : Mat) (N : ℕ) (s : TMFGState) (k : ℕ)
    (hN : 4 ≤ N) (hk : k < N - 4) :
    ((step s).cliques = s.cliques ++
      [(s.best_vertex.getD (argmax s.max_clique_gains) (-1)).toNat ::
        s.triangles.getD (argmax s.max_clique_gains) []]) ∧
    ((step s).separators = s.separators ++ [s.triangles.getD (argmax s.max_clique_gains) []]) ∧
    ((step s).triangles =
      (s.triangles.set (argmax s.max_clique_gains)
        [(s.triangles.getD (argmax s.max_clique_gains) []).getD 0 0,
         (s.triangles.getD (argmax s.max_clique_gains) []).getD 1 0,
         (s.best_vertex.getD (argmax s.max_clique_gains) (-1)).toNat]) ++
      [[(s.triangles.getD (argmax s.max_clique_gains) []).getD 0 0,
        (s.triangles.getD (argmax s.max_clique_gains) []).getD 2 0,
        (s.best_vertex.getD (argmax s.max_clique_gains) (-1)).toNat],
       [(s.triangles.getD (argmax s.max_clique_gains) []).getD 1 0,
        (s.triangles.getD (argmax s.max_clique_gains) []).getD 2 0,
        (s.best_vertex.getD (argmax s.max_clique_gains) (-1)).toNat]]) ∧
    ((compute_TMFG_state W N).cliques.getD (k + 1) [] =
      (compute_TMFG_state W N).peo.getD (4 + k) 0 ::
        (compute_TMFG_state W N).separators.getD k []) :=
  ⟨step_cliques s, step_separators s, step_triangles s,
    (run_link W N hN (N - 4)).2.2.2 k hk⟩

/-- Witness for C7 at the concrete input, first insertion. -/
theorem insertion_step_structure_witness :
    (4 ≤ 5) ∧ (0 < 5 - 4) ∧
    ((compute_TMFG_state w5c 5).cliques.getD 1 [] =
      (compute_TMFG_state w5c 5).peo.getD 4 0 ::
        (compute_TMFG_state w5c 5).separators.getD 0 []) :=
  ⟨by decide, by decide,
    (insertion_step_structure w5c 5 (initState w5c 5) 0 (by decide) (by decide)).2.2.2⟩

/-- C8: the run creates exactly `4 + 2 * (N - 4)` triangular faces (four
seed faces, two appended per insertion with one overwritten in place),
which never exceeds the `3N - 6` capacity of the gain and best-vertex
arrays, so every face index has a valid slot. -/
theorem face_count_capacity (W : Mat) (N : ℕ) (hN : 4 ≤ N) :
    (compute_TMFG_state W N).triangles.length = 4 + 2 * (N - 4) ∧
    4 + 2 * (N - 4) ≤ 3 * N - 6 ∧
    (compute_TMFG_state W N).max_clique_gains.length = 3 * N - 6 ∧
    (compute_TMFG_state W N).best_vertex.length = 3 * N - 6 :=
  ⟨(run_lengths W N (N - 4)).1, by omega, (run_lengths W N (N - 4)).2.1,
    (run_lengths W N (N - 4)).2.2⟩

/-- Witness for C8 at the concrete input. -/
theorem face_count_capacity_witness :
    (4 ≤ 5) ∧
    ((compute_TMFG_state w5c 5).triangles.length = 4 + 2 * (5 - 4) ∧
     4 + 2 * (5 - 4) ≤ 3 * 5 - 6 ∧
     (compute_TMFG_state w5c 5).max_clique_gains.length = 3 * 5 - 6 ∧
     (compute_TMFG_state w5c 5).best_vertex.length = 3 * 5 - 6) :=
  ⟨by decide, face_count_capacity w5c 5 (by decide)⟩

/-- C9: whenever `fit` succeeds with model `m`, `transform` returns
exactly the triple `(cliques, separators, J)` that `fit` computed, and
`fit_transform` returns that same triple. -/
theorem fit_transform_coherence (W : Mat) (N : ℕ) (cov : Mat) (covN : ℕ) (out : String)
    (m : TMFGModel) (h : fit W N cov covN out = Except.ok m) :
    transform m = (m.cliques, m.separators, m.J) ∧
    transform m = compute_TMFG W N cov out ∧
    fit_transform W N cov covN out = transform m := by
  have hm : m = fitModel W N cov covN out := by
    unfold fit at h
    dsimp only at h
    by_cases h1 : out = "logo"
    · rw [if_pos h1] at h
      by_cases h2 : (((fitModel W N cov covN out).cliques ++
          (fitModel W N cov covN out).separators).all
            (fun c => c.all (fun v => decide (v < covN)))) = true
      · rw [if_pos h2] at h
        exact (Except.ok.inj h).symm
      · rw [if_neg h2] at h
        exact Except.noConfusion h
    · rw [if_neg h1] at h
      exact (Except.ok.inj h).symm
  subst hm
  exact ⟨rfl, rfl, rfl⟩

/-- Witness for C9 at the concrete input. -/
theorem fit_transform_coherence_witness :
    fit w5c 5 idMat 5 "unweighted_sparse_W_matrix" =
      Except.ok (fitModel w5c 5 idMat 5 "unweighted_sparse_W_matrix") ∧
    (transform (fitModel w5c 5 idMat 5 "unweighted_sparse_W_matrix") =
      ((fitModel w5c 5 idMat 5 "unweighted_sparse_W_matrix").cliques,
       (fitModel w5c 5 idMat 5 "unweighted_sparse_W_matrix").separators,
       (fitModel w5c 5 idMat 5 "unweighted_sparse_W_matrix").J) ∧
     transform (fitModel w5c 5 idMat 5 "unweighted_sparse_W_matrix") =
       compute_TMFG w5c 5 idMat "unweighted_sparse_W_matrix" ∧
     fit_transform w5c 5 idMat 5 "unweighted_sparse_W_matrix" =
       transform (fitModel w5c 5 idMat 5 "unweighted_sparse_W_matrix")) :=
  ⟨fit_ok_of_ne_logo w5c 5 idMat 5 "unweighted_sparse_W_matrix" (by decide),
   fit_transform_coherence w5c 5 idMat 5 "unweighted_sparse_W_matrix"
    (fitModel w5c 5 idMat 5 "unweighted_sparse_W_matrix")
    (fit_ok_of_ne_logo w5c 5 idMat 5 "unweighted_sparse_W_matrix" (by decide))⟩

/-- C10: the accumulator `P` is written but never read: removing every
write to `P` leaves the returned cliques, separators and `J` unchanged,
for every input and every mode. -/
theorem P_accumulator_unused (W : Mat) (N : ℕ) (cov : Mat) (out : String) :
    compute_TMFG W N cov out = compute_TMFG_noP W N cov out := by
  have h := sansP_iterate W N (N - 4)
  unfold sansP at h
  simp only [Prod.mk.injEq] at h
  obtain ⟨h1, h2, h3, h4, h5, h6, h7, h8, h9, h10⟩ := h
  unfold compute_TMFG compute_TMFG_noP compute_TMFG_state
  dsimp only
  rw [h3, h6, h7]

end TMFGSpec
